import Mathlib

/-! Filter configuration layer (`pkg/meta/filters.go`).

A shallow embedding of the three operations of `filters.go`:

* `Filters.UnmarshalYAML` and `FilterKey.UnmarshalYAML` (order preserving decode),
* `Filters.ContainmentMap`,
* `Filters.Retain` (the retention evaluator).

Conventions of the embedding:

* a Go `map[K]V` is an `AList` (association list with pairwise distinct keys);
  `m[k] = v` is `AList.insert`, the two-valued read `v, ok := m[k]` is `AList.lookup`;
* the `Relations` map of a filter body and of a filter is a `GoNilMap`: it keeps the
  difference between the nil map and a map that was made, which the copy made by the
  decoder removes;
* a Go pointer `*T` is an `Option T`, `nil` being `none`;
* a call that mutates its receiver or an argument returns the new value;
* a run-time panic is an explicit outcome;
* the `int32` counter is an `Int` kept in the range `[-2^31, 2^31)`.
-/

namespace Meta

/-- A Go `map[K]V`. -/
abbrev GoMap (K V : Type) := AList (fun _ : K => V)

/-- A Go `map[K]struct{}`, used as a set. -/
abbrev GoSet (K : Type) := GoMap K Unit

/-- A Go map as a struct field holds it: the nil map, or a map made by `make` or by a
literal. -/
inductive GoNilMap (K V : Type) where
  | nil
  | made (m : GoMap K V)
deriving DecidableEq

/-- The entries that reading or ranging over the map finds: none in the nil map. -/
def GoNilMap.get {K V : Type} : GoNilMap K V → GoMap K V
  | GoNilMap.nil => ∅
  | GoNilMap.made m => m

/-- The two-valued read `v, ok := m[k]`. -/
def GoNilMap.lookup {K V : Type} [DecidableEq K] (m : GoNilMap K V) (k : K) : Option V :=
  m.get.lookup k

/-- The comparison `m == nil`. -/
def GoNilMap.isNil {K V : Type} : GoNilMap K V → Bool
  | GoNilMap.nil => true
  | GoNilMap.made _ => false

/-- The literal `map[K]V{}`: an empty map that is not nil. -/
instance GoNilMap.instEmptyCollection {K V : Type} : EmptyCollection (GoNilMap K V) :=
  ⟨GoNilMap.made ∅⟩

/-- Modelled from the spec: the relation descriptor `CollectionRelation` is declared
outside `filters.go`; the code here only stores and copies pointers to it, so the
descriptor is a value with an identity and no structure of its own. -/
structure CollectionRelation where
  descr : String
deriving DecidableEq, Repr

/-- Modelled from the spec: `CollectionSearchableConfig` is declared outside
`filters.go`. The code reads `c.Type` (a `*string`, compared with `nil` and
dereferenced) and `c.Analyzer` (assigned as it is to `Member.Analyzer`); the analyzer
is a value that may be empty, `none` here. -/
structure CollectionSearchableConfig where
  Type_ : Option String
  Analyzer : Option String
deriving DecidableEq, Repr

/-- Modelled from the spec: the field-metadata record `Member` is declared outside
`filters.go`; these are the four fields the evaluator writes. -/
structure Member where
  Searchable : Bool
  Type_ : String
  Analyzer : Option String
  Relation : Option CollectionRelation
deriving DecidableEq, Repr

/-- Modelled from the spec: the filter body `CollectionDescription` is declared outside
`filters.go`; these are the fields `Filters.UnmarshalYAML` reads. -/
structure CollectionDescription where
  Searchable : List String
  SearchableConfig : GoMap String (Option CollectionSearchableConfig)
  Additional : List String
  Contains : List String
  Relations : GoNilMap String (Option CollectionRelation)

/-- The Go struct `Filter`. -/
structure Filter where
  Name : String
  Items : List String
  ItemsConfig : GoMap String (Option CollectionSearchableConfig)
  Additional : List String
  Contains : GoSet String
  Relations : GoNilMap String (Option CollectionRelation)

/-- The Go struct `FilterKey`; `Order` is an `int32`. -/
structure FilterKey where
  Name : String
  Order : Int
deriving DecidableEq, Repr

/-- The Go type `Filters`, a slice of filters. -/
abbrev Filters := List Filter

/-! ## The retention evaluator -/

/-- The composite key `key` local to `Filters.Retain`. -/
structure key where
  rel : String
  field : String
deriving DecidableEq, Repr

/-- The four lookup tables captured by the closure that `Filters.Retain` returns. -/
structure Tables where
  keep : GoSet key
  additional : GoSet key
  relations : GoMap key (Option CollectionRelation)
  config : GoMap key (Option CollectionSearchableConfig)

/-- The tables before the loop of `Filters.Retain`: four empty maps. -/
def Tables.empty : Tables :=
  { keep := ∅, additional := ∅, relations := ∅, config := ∅ }

/-- One round of the loop `for _, m := range fs` of `Filters.Retain`: the four inner
loops, in the order of the source. A `range` over a map visits its entries in some
order; the keys of one map are distinct, so the order does not change the outcome. -/
def Tables.addFilter (t : Tables) (m : Filter) : Tables :=
  let keep := m.Items.foldl (fun acc f => acc.insert (key.mk m.Name f) ()) t.keep
  let config := m.ItemsConfig.entries.foldl
    (fun acc e => acc.insert (key.mk m.Name e.1) e.2) t.config
  let additional := m.Additional.foldl
    (fun acc f => acc.insert (key.mk m.Name f) ()) t.additional
  let relations := m.Relations.get.entries.foldl
    (fun acc e => acc.insert (key.mk m.Name e.1) e.2) t.relations
  { keep := keep, additional := additional, relations := relations, config := config }

/-- The table building part of `Filters.Retain`. -/
def Filters.tables (fs : Filters) : Tables :=
  fs.foldl Tables.addFilter Tables.empty

/-- How a call of the evaluator ends: with a returned boolean, or with the run-time
panic of a nil pointer dereference. -/
inductive Outcome where
  | returned (ok : Bool)
  | panicked
deriving DecidableEq, Repr

/-- What a call of the evaluator leaves behind: how it ended, the record `*m` as the
call left it (writes made before a panic stay in the record), and the lines handed to
`log.Printf`. -/
structure EvalResult where
  outcome : Outcome
  m : Member
  log : List String
deriving DecidableEq, Repr

/-- The body of the closure returned by `Filters.Retain`. -/
def Tables.eval (t : Tables) (verbose : Bool) (rk fk : String) (m : Member) : EvalResult :=
  -- if _, ok := relations[key{rk, fk}]; ok { m.Relation = relations[key{rk, fk}] }
  let m1 : Member :=
    match t.relations.lookup (key.mk rk fk) with
    | some d => { m with Relation := d }
    | none => m
  -- if c, ok := config[key{rk, fk}]; ok { if c.Type != nil { ... }; m.Analyzer = c.Analyzer }
  match t.config.lookup (key.mk rk fk) with
  | some none =>
    -- `c` is a nil pointer and `c.Type` dereferences it
    { outcome := Outcome.panicked, m := m1, log := [] }
  | cfg =>
    let m2 : Member :=
      match cfg with
      | some (some c) =>
        let m1t : Member :=
          match c.Type_ with
          | some ty => { m1 with Type_ := ty }
          | none => m1
        { m1t with Analyzer := c.Analyzer }
      | _ => m1
    -- if _, ok := additional[key{rk, fk}]; ok { m.Searchable = false; return true }
    if (t.additional.lookup (key.mk rk fk)).isSome then
      { outcome := Outcome.returned true, m := { m2 with Searchable := false }, log := [] }
    else
      let ok := (t.keep.lookup (key.mk rk fk)).isSome
      if !ok && verbose then
        { outcome := Outcome.returned ok, m := m2,
          log := ["removing filtered " ++ rk ++ "." ++ fk ++ "\n"] }
      else
        { outcome := Outcome.returned ok, m := { m2 with Searchable := true }, log := [] }

/-- The Go method `Filters.Retain`: builds the tables and returns the evaluator. -/
def Filters.Retain (fs : Filters) (verbose : Bool) : String → String → Member → EvalResult :=
  (Filters.tables fs).eval verbose

/-- The newer of two table entries: the new one when there is one. -/
def pick {V : Type} (new old : Option V) : Option V :=
  match new with
  | some v => some v
  | none => old

/-- What filter `f` contributes to the relations table at key `k`. -/
def relOf (f : Filter) (k : key) : Option (Option CollectionRelation) :=
  if k.rel = f.Name then f.Relations.lookup k.field else none

/-- What filter `f` contributes to the config table at key `k`. -/
def cfgOf (f : Filter) (k : key) : Option (Option CollectionSearchableConfig) :=
  if k.rel = f.Name then f.ItemsConfig.lookup k.field else none

/-! ## The containment map -/

/-- The inner part of one round of `Filters.ContainmentMap` for the name `name`: a fresh
set holding `name`, to which the loop over `g` adds the name of every filter whose
`Contains` has `name`. -/
def Filters.containmentOf (fs : Filters) (name : String) : GoSet String :=
  fs.foldl
    (fun inner g => if (g.Contains.lookup name).isSome then inner.insert g.Name () else inner)
    ((∅ : GoSet String).insert name ())

/-- The Go method `Filters.ContainmentMap`. The inner map is filled through the reference
stored in `containment`; here it is filled before it is stored. -/
def Filters.ContainmentMap (fs : Filters) : GoMap String (GoSet String) :=
  fs.foldl (fun containment f => containment.insert f.Name (fs.containmentOf f.Name)) ∅

/-! ## The ordered decoder -/

/-- An error value: a `*yaml.TypeError`, which lists the messages of the type errors of a
decode, or another error. -/
inductive Error where
  | typeError (errors : List String)
  | other (msg : String)
deriving DecidableEq, Repr

/-- The value of an `int32` after an arithmetic result `i`: two's complement wrap-around. -/
def wrapInt32 (i : Int) : Int :=
  (i + 2147483648) % 4294967296 - 2147483648

/-- Modelled from the spec: the process-wide counter `filterNum` is declared outside
`filters.go`; it is a single atomically incremented `int32`. `filterNum.Add(delta)` stores
and returns the new value, given here from the old one. -/
def filterNumAdd (filterNum delta : Int) : Int :=
  wrapInt32 (filterNum + delta)

/-- The Go method `FilterKey.UnmarshalYAML`. The node `value` is given by what
`value.Decode(&s)` makes of it: the string, or the error. Returns the error if any, the
new `*fk` and the new value of `filterNum`. -/
def FilterKey.UnmarshalYAML (fk : FilterKey) (value : Except Error String) (filterNum : Int) :
    Option Error × FilterKey × Int :=
  match value with
  | Except.error err => (some err, fk, filterNum)
  | Except.ok s =>
    let n := filterNumAdd filterNum 1
    (none, { Order := n, Name := s }, n)

/-- The kinds of YAML nodes (`yaml.Kind`). -/
inductive Kind where
  | DocumentNode
  | SequenceNode
  | MappingNode
  | ScalarNode
  | AliasNode
deriving DecidableEq, Repr

/-- A key node of the mapping, by what the YAML library and `FilterKey.UnmarshalYAML` read
from it: its `Kind` and its `Value`, which the check for duplicate keys compares; whether
its tag is `!!null`; and what `value.Decode(&s)` makes of it. -/
structure KeyNode where
  kind : Kind
  Value : String
  isNull : Bool
  decodeString : Except Error String

/-- What the YAML library makes of a body node decoded into a `CollectionDescription`.
`stored`: a body is stored in the map, with the type errors met inside it, if any (a
null body stores the zero body without error). `skipped`: nothing is stored, and the
type errors are kept. `failed`: an error that is no type error, which ends the decode
at once. -/
inductive BodyResult where
  | stored (d : CollectionDescription) (errors : List String)
  | skipped (errors : List String)
  | failed (msg : String)

/-- One key/value pair of the YAML mapping node handed to `Filters.UnmarshalYAML`. The
mapping is one without a merge key `<<`, whose pairs the library would decode from
another node. -/
structure MappingEntry where
  key : KeyNode
  body : BodyResult

/-- The messages of the check for duplicate keys that the YAML library runs before it
decodes a mapping: one for every key node that has the `Kind` and the `Value` of an earlier
one (the line numbers of the messages are left out). -/
def duplicateKeys : List KeyNode → List String
  | [] => []
  | ni :: rest =>
    (rest.filter (fun nj => decide (ni.kind = nj.kind ∧ ni.Value = nj.Value))).map
        (fun nj => "mapping key " ++ nj.Value.quote ++ " already defined") ++
      duplicateKeys rest

/-- The state in which the loop of the YAML library over the pairs of a mapping ends:
the error that ended it at once, if any; the messages of the type errors it has kept; the
pairs it has stored, in declaration order; and the value of `filterNum`. -/
structure Decoded where
  failed : Option String
  errors : List String
  pairs : List (FilterKey × CollectionDescription)
  filterNum : Int

/-- The loop of `value.Decode(&fsm)` over the pairs of the mapping, in declaration order.
A pair with a null key is passed over without a call of `FilterKey.UnmarshalYAML` and
without an error. For every other pair the library decodes the key through
`FilterKey.UnmarshalYAML` on a zero `FilterKey`, then the body. A type error of the key
or of the body is kept and the loop goes on with the next pair; an error of another
kind ends the decode at once. Before the key of each pair, other decodes running in the
process may have incremented `filterNum`: `foreign` lists how many times, pair by pair
(none where the list has run out). -/
def decodeEntries : List MappingEntry → List Nat → Int → Decoded
  | [], _, filterNum => { failed := none, errors := [], pairs := [], filterNum := filterNum }
  | e :: rest, foreign, filterNum =>
    if e.key.isNull then
      decodeEntries rest foreign.tail (filterNumAdd filterNum (foreign.headD 0))
    else
      match FilterKey.UnmarshalYAML { Name := "", Order := 0 } e.key.decodeString
          (filterNumAdd filterNum (foreign.headD 0)) with
      | (some (Error.other msg), _, filterNum1) =>
        { failed := some msg, errors := [], pairs := [], filterNum := filterNum1 }
      | (some (Error.typeError errors), _, filterNum1) =>
        let r := decodeEntries rest foreign.tail filterNum1
        { r with errors := errors ++ r.errors }
      | (none, k, filterNum1) =>
        match e.body with
        | BodyResult.failed msg =>
          { failed := some msg, errors := [], pairs := [], filterNum := filterNum1 }
        | BodyResult.skipped errors =>
          let r := decodeEntries rest foreign.tail filterNum1
          { r with errors := errors ++ r.errors }
        | BodyResult.stored d errors =>
          let r := decodeEntries rest foreign.tail filterNum1
          { r with errors := errors ++ r.errors, pairs := (k, d) :: r.pairs }

/-- The call `value.Decode(&fsm)` on the mapping node: the decoded pairs, or the error,
and the new value of `filterNum`. A mapping with duplicate keys is refused before any
pair is decoded. An error that ended the loop at once is returned as it is; type errors
that were kept are returned as one `*yaml.TypeError` after the last pair. -/
def decodeMapping (value : List MappingEntry) (foreign : List Nat) (filterNum : Int) :
    Except Error (List (FilterKey × CollectionDescription)) × Int :=
  if duplicateKeys (value.map MappingEntry.key) ≠ [] then
    (Except.error (Error.typeError (duplicateKeys (value.map MappingEntry.key))), filterNum)
  else
    let r := decodeEntries value foreign filterNum
    match r.failed with
    | some msg => (Except.error (Error.other msg), r.filterNum)
    | none =>
      if r.errors = [] then (Except.ok r.pairs, r.filterNum)
      else (Except.error (Error.typeError r.errors), r.filterNum)

/-- The messages of the type errors that the decode of one pair meets: those of its key,
or, when the key decodes, those of its body; none for a pair with a null key. -/
def MappingEntry.typeErrors (e : MappingEntry) : List String :=
  if e.key.isNull then []
  else
    match e.key.decodeString with
    | Except.error (Error.typeError errors) => errors
    | Except.error (Error.other _) => []
    | Except.ok _ =>
      match e.body with
      | BodyResult.stored _ errors => errors
      | BodyResult.skipped errors => errors
      | BodyResult.failed _ => []

/-- The error of another kind than a type error that the decode of one pair meets, if
any: that of its key, or, when the key decodes, that of its body. -/
def MappingEntry.fatalError (e : MappingEntry) : Option String :=
  if e.key.isNull then none
  else
    match e.key.decodeString with
    | Except.error (Error.typeError _) => none
    | Except.error (Error.other msg) => some msg
    | Except.ok _ =>
      match e.body with
      | BodyResult.failed msg => some msg
      | _ => none

/-- The key of the pair does not decode as a plain string, or its body does not decode:
the decode of the pair meets an error. -/
def MappingEntry.failing (e : MappingEntry) : Prop :=
  e.fatalError ≠ none ∨ e.typeErrors ≠ []

instance MappingEntry.decidableFailing (e : MappingEntry) : Decidable e.failing :=
  inferInstanceAs (Decidable (e.fatalError ≠ none ∨ e.typeErrors ≠ []))

/-- The keys of a decode in declaration order, each with the `Order` it received; empty
when the decode fails. -/
def decodedKeys (value : List MappingEntry) (foreign : List Nat) (filterNum : Int) :
    List FilterKey :=
  match (decodeMapping value foreign filterNum).1 with
  | Except.ok ps => ps.map Prod.fst
  | Except.error _ => []

/-- The map `fsm` that `value.Decode(&fsm)` fills: the decoded pairs, stored one by one. -/
def toMap (ps : List (FilterKey × CollectionDescription)) :
    GoMap FilterKey CollectionDescription :=
  ps.foldl (fun fsm p => fsm.insert p.1 p.2) ∅

/-- The order that the comparison `sorted[i].Order < sorted[j].Order` sorts by: `a` may
stand before `b`. -/
def FilterKey.le (a b : FilterKey) : Prop :=
  a.Order ≤ b.Order

instance FilterKey.decidableLe : DecidableRel FilterKey.le :=
  fun a b => inferInstanceAs (Decidable (a.Order ≤ b.Order))

instance FilterKey.isTotalLe : IsTotal FilterKey FilterKey.le :=
  ⟨fun a b => Int.le_total a.Order b.Order⟩

instance FilterKey.isTransLe : IsTrans FilterKey FilterKey.le :=
  ⟨fun _ _ _ hab hbc => Int.le_trans hab hbc⟩

/-- The call of `sort.Slice` on `sorted` with the comparison `sorted[i].Order <
sorted[j].Order`, as an insertion sort. `sort.Slice` is not stable; for keys of distinct
`Order` every sort gives the same slice. -/
def sortByOrder (sorted : List FilterKey) : List FilterKey :=
  sorted.insertionSort FilterKey.le

/-- The zero value of `CollectionDescription`, what `fsm[s]` gives for a missing key. -/
def CollectionDescription.zero : CollectionDescription :=
  { Searchable := [], SearchableConfig := ∅, Additional := [], Contains := [],
    Relations := GoNilMap.nil }

/-- The body of the loop `for _, s := range sorted` of `Filters.UnmarshalYAML`: the filter
appended for the key `s`, where `d` is `fsm[s]`. -/
def buildFilter (s : FilterKey) (d : CollectionDescription) : Filter :=
  let relations : GoMap String (Option CollectionRelation) :=
    d.Relations.get.entries.foldl (fun acc e => acc.insert e.1 e.2) ∅
  let contains : GoSet String := d.Contains.foldl (fun acc c => acc.insert c ()) ∅
  { Name := s.Name, Items := d.Searchable, ItemsConfig := d.SearchableConfig,
    Additional := d.Additional, Relations := GoNilMap.made relations,
    Contains := contains }

/-- The Go method `Filters.UnmarshalYAML`. `value` is the mapping node, pair by pair;
`rangeKeys` is the order in which `for k := range fsm` delivers the keys of the map, which
Go leaves open. Returns the error if any, the new `*fs` and the new value of
`filterNum`. -/
def Filters.UnmarshalYAML (fs : Filters) (value : List MappingEntry)
    (rangeKeys : GoMap FilterKey CollectionDescription → List FilterKey)
    (foreign : List Nat) (filterNum : Int) : Option Error × Filters × Int :=
  match decodeMapping value foreign filterNum with
  | (Except.error err, filterNum1) => (some err, fs, filterNum1)
  | (Except.ok ps, filterNum1) =>
    let fsm := toMap ps
    let sorted := sortByOrder (rangeKeys fsm)
    (none,
      sorted.map (fun s => buildFilter s ((fsm.lookup s).getD CollectionDescription.zero)),
      filterNum1)

/-- The pair of a mapping node whose key is the plain scalar `p.1`, which decodes to the
string `p.1`, and whose body decodes without error to the description `p.2`. -/
def MappingEntry.decoded (p : String × CollectionDescription) : MappingEntry :=
  { key := { kind := Kind.ScalarNode, Value := p.1, isNull := false,
             decodeString := Except.ok p.1 },
    body := BodyResult.stored p.2 [] }

/-- The filter that `Filters.UnmarshalYAML` appends for a key named `name` with body `d`:
the `Order` of the key does not enter the filter. -/
def filterOf (name : String) (d : CollectionDescription) : Filter :=
  buildFilter { Name := name, Order := 0 } d

/-- The number of times `filterNum` is incremented during a decode of `n` keys: once for
each key, and `foreign` times by other decodes in between. -/
def increments (foreign : List Nat) (n : Nat) : Nat :=
  (foreign.take n).sum + n

/-! ## Concrete inputs -/

/-- A filter body with one searchable field and no `relations` key, which leaves the
`Relations` map nil. -/
def exBody (field : String) : CollectionDescription :=
  { Searchable := [field], SearchableConfig := ∅, Additional := [], Contains := [],
    Relations := GoNilMap.nil }

/-- A mapping node declaring the filters `motion`, `assignment`, `topic` in this order. -/
def exMapping : List (String × CollectionDescription) :=
  [("motion", exBody "title"), ("assignment", exBody "title"), ("topic", exBody "text")]

/-- A record that is not searchable and has no relation. -/
def exMember : Member :=
  { Searchable := false, Type_ := "string", Analyzer := some "standard", Relation := none }

/-- A filter for `topic` whose config map holds a nil pointer under `title`, as the
YAML `searchable_config: {title: null}` decodes. -/
def exNilConfig : Filter :=
  { Name := "topic", Items := [], ItemsConfig := AList.singleton "title" none,
    Additional := [], Contains := ∅, Relations := ∅ }

/-- A filter for `topic` that lists `title` in `Items` and in `Additional` and whose
config map holds a nil pointer under `title`. -/
def exNilConfigAdditional : Filter :=
  { Name := "topic", Items := ["title"], ItemsConfig := AList.singleton "title" none,
    Additional := ["title"], Contains := ∅, Relations := ∅ }

/-- A filter for `topic` that lists `title` in `Items` only and whose config map holds a
nil pointer under `title`. -/
def exNilConfigKeep : Filter :=
  { Name := "topic", Items := ["title"], ItemsConfig := AList.singleton "title" none,
    Additional := [], Contains := ∅, Relations := ∅ }

/-- A filter for `topic` with a searchable field, a config override, an additional field
and a relation. -/
def exTopic : Filter :=
  { Name := "topic", Items := ["title", "text"],
    ItemsConfig := AList.singleton "text"
      (some { Type_ := some "html", Analyzer := none }),
    Additional := ["owner_id"], Contains := ∅,
    Relations := GoNilMap.made (AList.singleton "owner_id" (some { descr := "meeting" })) }

/-- The filters `A` containing `B`, `B` containing `C`, and `C` containing nothing. -/
def exChain : Filters :=
  [ { Name := "A", Items := [], ItemsConfig := ∅, Additional := [],
      Contains := AList.singleton "B" (), Relations := ∅ },
    { Name := "B", Items := [], ItemsConfig := ∅, Additional := [],
      Contains := AList.singleton "C" (), Relations := ∅ },
    { Name := "C", Items := [], ItemsConfig := ∅, Additional := [], Contains := ∅,
      Relations := ∅ } ]

/-- A single filter `A` whose `Contains` lists `D`, a name that is not a filter. -/
def exDangling : Filters :=
  [ { Name := "A", Items := [], ItemsConfig := ∅, Additional := [],
      Contains := AList.singleton "D" (), Relations := ∅ } ]

/-- A second filter named `topic`, with its own override for `text` (an analyzer and no
type) and its own relation on `owner_id`. -/
def exTopicLater : Filter :=
  { Name := "topic", Items := [],
    ItemsConfig := AList.singleton "text"
      (some { Type_ := none, Analyzer := some "german" }),
    Additional := [], Contains := ∅,
    Relations := GoNilMap.made (AList.singleton "owner_id" (some { descr := "user" })) }

/-- A filter named `topic` with a relation on `text` and no config. -/
def exTopicRelation : Filter :=
  { Name := "topic", Items := [], ItemsConfig := ∅, Additional := [], Contains := ∅,
    Relations := GoNilMap.made (AList.singleton "text" (some { descr := "agenda_item" })) }

/-- A second filter named `topic` whose config map holds a nil pointer under `text`. -/
def exTopicNil : Filter :=
  { Name := "topic", Items := [], ItemsConfig := AList.singleton "text" none,
    Additional := [], Contains := ∅, Relations := ∅ }

/-- A filter for `topic` with a relation on `title` and a config map that holds a nil
pointer under `title`. -/
def exNilConfigRelation : Filter :=
  { Name := "topic", Items := ["title"], ItemsConfig := AList.singleton "title" none,
    Additional := [], Contains := ∅,
    Relations := GoNilMap.made (AList.singleton "title" (some { descr := "agenda_item" })) }

/-- A mapping node of three pairs: a key that is a sequence, which does not decode as a
string; the filter `motion`; and the filter `topic` with a body that is a plain scalar,
which does not decode as a filter body. -/
def exBadMapping : List MappingEntry :=
  [ { key := { kind := Kind.SequenceNode, Value := "", isNull := false,
               decodeString := Except.error
                 (Error.typeError ["cannot unmarshal !!seq into string"]) },
      body := BodyResult.stored (exBody "title") [] },
    MappingEntry.decoded ("motion", exBody "title"),
    { key := { kind := Kind.ScalarNode, Value := "topic", isNull := false,
               decodeString := Except.ok "topic" },
      body := BodyResult.skipped ["cannot unmarshal !!str into meta.CollectionDescription"] } ]

/-- A mapping node declaring `A`, whose body lists `B` twice and `C` once in `contains` and
has a relation on `owner_id`, and `B`. -/
def exMappingContains : List (String × CollectionDescription) :=
  [ ("A", { Searchable := ["title"], SearchableConfig := ∅, Additional := ["owner_id"],
            Contains := ["B", "B", "C"],
            Relations := GoNilMap.made (AList.singleton "owner_id" (some { descr := "user" })) }),
    ("B", exBody "text") ]

/-! ## Lemmas on the lookup tables -/

theorem mem_foldl_insert_unit {K A : Type} [DecidableEq K] (g : A → K) (l : List A)
    (s : GoSet K) (k : K) :
    k ∈ l.foldl (fun acc a => acc.insert (g a) ()) s ↔ (∃ a ∈ l, g a = k) ∨ k ∈ s := by
  induction l generalizing s with
  | nil => simp
  | cons a l ih =>
    rw [List.foldl_cons, ih, AList.mem_insert]
    constructor
    · rintro (⟨b, hb, rfl⟩ | rfl | h)
      · exact Or.inl ⟨b, List.mem_cons_of_mem _ hb, rfl⟩
      · exact Or.inl ⟨a, List.mem_cons_self _ _, rfl⟩
      · exact Or.inr h
    · rintro (⟨b, hb, rfl⟩ | h)
      · rcases List.mem_cons.1 hb with rfl | hb
        · exact Or.inr (Or.inl rfl)
        · exact Or.inl ⟨b, hb, rfl⟩
      · exact Or.inr (Or.inr h)

theorem lookup_foldl_insert_entries {V : Type} (n : String)
    (es : List (Sigma fun _ : String => V)) (hnd : es.NodupKeys) (s : GoMap key V) (k : key) :
    (es.foldl (fun acc e => acc.insert (key.mk n e.1) e.2) s).lookup k =
      pick (if k.rel = n then es.dlookup k.field else none) (s.lookup k) := by
  induction es generalizing s with
  | nil => simp [pick]
  | cons e es ih =>
    obtain ⟨ef, ev⟩ := e
    rw [List.nodupKeys_cons] at hnd
    rw [List.foldl_cons, ih hnd.2]
    by_cases hr : k.rel = n
    · by_cases hf : k.field = ef
      · have hk : k = key.mk n ef := by cases k; simp_all
        have hno : List.dlookup ef es = none := List.dlookup_eq_none.2 hnd.1
        subst hk
        simp [pick, hno, AList.lookup_insert]
      · have hk : k ≠ key.mk n ef := by
          intro h; apply hf; rw [h]
        have hf2 : ef ≠ k.field := fun h => hf h.symm
        rw [AList.lookup_insert_ne hk, List.dlookup_cons_ne es (a := k.field) (⟨ef, ev⟩ : Sigma fun _ : String => V) hf]
    · have hk : k ≠ key.mk n ef := by
        intro h; apply hr; rw [h]
      simp [hr, AList.lookup_insert_ne hk]

theorem addFilter_keep (t : Tables) (f : Filter) (k : key) :
    k ∈ (t.addFilter f).keep ↔ (f.Name = k.rel ∧ k.field ∈ f.Items) ∨ k ∈ t.keep := by
  unfold Tables.addFilter
  simp only [mem_foldl_insert_unit]
  constructor
  · rintro (⟨a, ha, rfl⟩ | h)
    · exact Or.inl ⟨rfl, ha⟩
    · exact Or.inr h
  · rintro (⟨h1, h2⟩ | h)
    · exact Or.inl ⟨k.field, h2, by cases k; simp_all⟩
    · exact Or.inr h

theorem addFilter_additional (t : Tables) (f : Filter) (k : key) :
    k ∈ (t.addFilter f).additional ↔
      (f.Name = k.rel ∧ k.field ∈ f.Additional) ∨ k ∈ t.additional := by
  unfold Tables.addFilter
  simp only [mem_foldl_insert_unit]
  constructor
  · rintro (⟨a, ha, rfl⟩ | h)
    · exact Or.inl ⟨rfl, ha⟩
    · exact Or.inr h
  · rintro (⟨h1, h2⟩ | h)
    · exact Or.inl ⟨k.field, h2, by cases k; simp_all⟩
    · exact Or.inr h

theorem addFilter_relations (t : Tables) (f : Filter) (k : key) :
    (t.addFilter f).relations.lookup k = pick (relOf f k) (t.relations.lookup k) := by
  unfold Tables.addFilter relOf
  simp only [lookup_foldl_insert_entries _ _ f.Relations.get.nodupKeys]
  rfl

theorem addFilter_config (t : Tables) (f : Filter) (k : key) :
    (t.addFilter f).config.lookup k = pick (cfgOf f k) (t.config.lookup k) := by
  unfold Tables.addFilter cfgOf
  simp only [lookup_foldl_insert_entries _ _ f.ItemsConfig.nodupKeys]
  rfl

theorem foldl_addFilter_keep (fs : Filters) (t : Tables) (k : key) :
    k ∈ (fs.foldl Tables.addFilter t).keep ↔
      (∃ f ∈ fs, f.Name = k.rel ∧ k.field ∈ f.Items) ∨ k ∈ t.keep := by
  induction fs generalizing t with
  | nil => simp
  | cons f fs ih =>
    rw [List.foldl_cons, ih, addFilter_keep]
    simp only [List.mem_cons, exists_eq_or_imp]
    rw [or_assoc, or_left_comm]

theorem foldl_addFilter_additional (fs : Filters) (t : Tables) (k : key) :
    k ∈ (fs.foldl Tables.addFilter t).additional ↔
      (∃ f ∈ fs, f.Name = k.rel ∧ k.field ∈ f.Additional) ∨ k ∈ t.additional := by
  induction fs generalizing t with
  | nil => simp
  | cons f fs ih =>
    rw [List.foldl_cons, ih, addFilter_additional]
    simp only [List.mem_cons, exists_eq_or_imp]
    rw [or_assoc, or_left_comm]

theorem foldl_addFilter_relations (fs : Filters) (t : Tables) (k : key) :
    (fs.foldl Tables.addFilter t).relations.lookup k =
      fs.foldl (fun acc f => pick (relOf f k) acc) (t.relations.lookup k) := by
  induction fs generalizing t with
  | nil => rfl
  | cons f fs ih => rw [List.foldl_cons, ih, addFilter_relations, List.foldl_cons]

theorem foldl_addFilter_config (fs : Filters) (t : Tables) (k : key) :
    (fs.foldl Tables.addFilter t).config.lookup k =
      fs.foldl (fun acc f => pick (cfgOf f k) acc) (t.config.lookup k) := by
  induction fs generalizing t with
  | nil => rfl
  | cons f fs ih => rw [List.foldl_cons, ih, addFilter_config, List.foldl_cons]

theorem foldl_pick_none {A V : Type} (h : A → Option V) (l : List A) (init : Option V)
    (hl : ∀ a ∈ l, h a = none) : l.foldl (fun acc a => pick (h a) acc) init = init := by
  induction l generalizing init with
  | nil => rfl
  | cons a l ih =>
    rw [List.foldl_cons, ih _ (fun b hb => hl b (List.mem_cons_of_mem _ hb)),
      hl a (List.mem_cons_self _ _)]
    rfl

theorem foldl_pick_last {A V : Type} (h : A → Option V) (pre post : List A) (a : A) (v : V)
    (init : Option V) (ha : h a = some v) (hpost : ∀ b ∈ post, h b = none) :
    (pre ++ a :: post).foldl (fun acc a => pick (h a) acc) init = some v := by
  rw [List.foldl_append, List.foldl_cons, foldl_pick_none h post _ hpost, ha]
  rfl

/-- The keep table holds `(r, x)` exactly when a filter named `r` lists `x` in `Items`. -/
theorem tables_keep (fs : Filters) (r x : String) :
    (key.mk r x) ∈ (Filters.tables fs).keep ↔ ∃ f ∈ fs, f.Name = r ∧ x ∈ f.Items := by
  unfold Filters.tables
  rw [foldl_addFilter_keep]
  simp [Tables.empty]

/-- The additional table holds `(r, x)` exactly when a filter named `r` lists `x` in
`Additional`. -/
theorem tables_additional (fs : Filters) (r x : String) :
    (key.mk r x) ∈ (Filters.tables fs).additional ↔
      ∃ f ∈ fs, f.Name = r ∧ x ∈ f.Additional := by
  unfold Filters.tables
  rw [foldl_addFilter_additional]
  simp [Tables.empty]

/-- The relations table at `(r, x)`: the entry of the last filter named `r` that has one. -/
theorem tables_relations (fs : Filters) (k : key) :
    (Filters.tables fs).relations.lookup k =
      fs.foldl (fun acc f => pick (relOf f k) acc) none := by
  unfold Filters.tables
  rw [foldl_addFilter_relations]
  rfl

/-- The config table at `(r, x)`: the entry of the last filter named `r` that has one. -/
theorem tables_config (fs : Filters) (k : key) :
    (Filters.tables fs).config.lookup k =
      fs.foldl (fun acc f => pick (cfgOf f k) acc) none := by
  unfold Filters.tables
  rw [foldl_addFilter_config]
  rfl

/-! ### The evaluator, step by step -/

/-- The relation step: the record's `Relation` after a call, panic or not. -/
theorem eval_relation (t : Tables) (verbose : Bool) (rk fk : String) (m : Member) :
    (t.eval verbose rk fk m).m.Relation =
      match t.relations.lookup (key.mk rk fk) with
      | some d => d
      | none => m.Relation := by
  unfold Tables.eval
  cases hrel : t.relations.lookup (key.mk rk fk) <;>
  · rcases hcfg : t.config.lookup (key.mk rk fk) with _ | _ | c
    · simp only []; split_ifs <;> rfl
    · rfl
    · simp only []; cases c.Type_ <;> split_ifs <;> rfl

/-- A call panics exactly when the config table holds a nil pointer at the key. -/
theorem eval_panicked_iff (t : Tables) (verbose : Bool) (rk fk : String) (m : Member) :
    (t.eval verbose rk fk m).outcome = Outcome.panicked ↔
      t.config.lookup (key.mk rk fk) = some none := by
  unfold Tables.eval
  rcases hcfg : t.config.lookup (key.mk rk fk) with _ | _ | c
  · simp only []; split_ifs <;> simp
  · simp
  · simp only []; split_ifs <;> simp

/-- Without a nil pointer in the config table at the key, a key of the additional table
is retained and made not searchable. -/
theorem eval_additional (t : Tables) (verbose : Bool) (rk fk : String) (m : Member)
    (hcfg : t.config.lookup (key.mk rk fk) ≠ some none)
    (hadd : (key.mk rk fk) ∈ t.additional) :
    (t.eval verbose rk fk m).outcome = Outcome.returned true ∧
      (t.eval verbose rk fk m).m.Searchable = false := by
  have h : (t.additional.lookup (key.mk rk fk)).isSome = true := AList.lookup_isSome.2 hadd
  unfold Tables.eval
  rcases hc : t.config.lookup (key.mk rk fk) with _ | _ | c
  · simp [h]
  · exact absurd hc hcfg
  · simp [h]

/-- Without a nil pointer in the config table at the key, a key of the keep table that is
not in the additional table is retained and made searchable. -/
theorem eval_keep (t : Tables) (verbose : Bool) (rk fk : String) (m : Member)
    (hcfg : t.config.lookup (key.mk rk fk) ≠ some none)
    (hadd : (key.mk rk fk) ∉ t.additional) (hkeep : (key.mk rk fk) ∈ t.keep) :
    (t.eval verbose rk fk m).outcome = Outcome.returned true ∧
      (t.eval verbose rk fk m).m.Searchable = true := by
  have h : (t.keep.lookup (key.mk rk fk)).isSome = true := AList.lookup_isSome.2 hkeep
  have h2 : t.additional.lookup (key.mk rk fk) = none := AList.lookup_eq_none.2 hadd
  unfold Tables.eval
  rcases hc : t.config.lookup (key.mk rk fk) with _ | _ | c
  · simp [h, h2]
  · exact absurd hc hcfg
  · simp [h, h2]

/-- Without a nil pointer in the config table at the key, a key of neither the additional
nor the keep table is dropped; the record's `Searchable` is left alone when the evaluator
is verbose and set to true when it is not. -/
theorem eval_drop (t : Tables) (verbose : Bool) (rk fk : String) (m : Member)
    (hcfg : t.config.lookup (key.mk rk fk) ≠ some none)
    (hadd : (key.mk rk fk) ∉ t.additional) (hkeep : (key.mk rk fk) ∉ t.keep) :
    (t.eval verbose rk fk m).outcome = Outcome.returned false ∧
      (t.eval verbose rk fk m).m.Searchable = (if verbose then m.Searchable else true) := by
  have h : t.keep.lookup (key.mk rk fk) = none := AList.lookup_eq_none.2 hkeep
  have h2 : t.additional.lookup (key.mk rk fk) = none := AList.lookup_eq_none.2 hadd
  unfold Tables.eval
  rcases hc : t.config.lookup (key.mk rk fk) with _ | _ | c
  · cases hrel : t.relations.lookup (key.mk rk fk) <;> cases verbose <;> simp [h, h2]
  · exact absurd hc hcfg
  · obtain ⟨ty, an⟩ := c
    cases hrel : t.relations.lookup (key.mk rk fk) <;> cases verbose <;>
      cases ty <;> simp [h, h2]

/-! ### Claims about the evaluator -/

/-- C2: additional precedence fails on a filter list whose config map holds a nil
pointer for the field: with `title` in both `Items` and `Additional` of `topic` and a nil
config entry under `title`, the call for `(topic, title)` panics instead of returning
true, and the record's `Searchable` is not forced to false. -/
theorem retain_additional_nil_config :
    (Filters.Retain [exNilConfigAdditional] false "topic" "title"
        { exMember with Searchable := true }).outcome = Outcome.panicked ∧
    (Filters.Retain [exNilConfigAdditional] false "topic" "title"
        { exMember with Searchable := true }).m.Searchable = true := by
  decide

/-- Additional precedence away from nil config entries: if a filter named `r` lists `x`
in `Additional` and the config table holds no nil pointer at `(r, x)`, the call returns
true and leaves `Searchable` false. -/
theorem additional_wins_without_nil_config (fs : Filters) (verbose : Bool) (r x : String) (m : Member)
    (hcfg : (Filters.tables fs).config.lookup (key.mk r x) ≠ some none)
    (hadd : ∃ f ∈ fs, f.Name = r ∧ x ∈ f.Additional) :
    (fs.Retain verbose r x m).outcome = Outcome.returned true ∧
      (fs.Retain verbose r x m).m.Searchable = false :=
  eval_additional _ verbose r x m hcfg ((tables_additional fs r x).2 hadd)

/-- C3: a drop decision of the evaluator built with verbosity off changes the record:
for a pair in no table the call returns false and sets `Searchable`, false before,
to true. -/
theorem retain_drop_sets_searchable :
    exMember.Searchable = false ∧
    (Filters.Retain [exTopic] false "topic" "unknown" exMember).outcome =
      Outcome.returned false ∧
    (Filters.Retain [exTopic] false "topic" "unknown" exMember).m.Searchable = true := by
  decide

/-- The drop decision away from nil config entries: a pair in neither the additional nor
the keep table is dropped; `Searchable` is untouched by the verbose evaluator and set
to true by the silent one. -/
theorem drop_without_nil_config (fs : Filters) (verbose : Bool) (r x : String) (m : Member)
    (hcfg : (Filters.tables fs).config.lookup (key.mk r x) ≠ some none)
    (hadd : ∀ f ∈ fs, f.Name = r → x ∉ f.Additional)
    (hkeep : ∀ f ∈ fs, f.Name = r → x ∉ f.Items) :
    (fs.Retain verbose r x m).outcome = Outcome.returned false ∧
      (fs.Retain verbose r x m).m.Searchable = (if verbose then m.Searchable else true) := by
  apply eval_drop _ verbose r x m hcfg
  · rw [tables_additional]
    rintro ⟨f, hf, hn, hx⟩
    exact hadd f hf hn hx
  · rw [tables_keep]
    rintro ⟨f, hf, hn, hx⟩
    exact hkeep f hf hn hx

/-- C4: the keep decision fails on a filter list whose config map holds a nil pointer for
the field: with `title` in `Items` of `topic`, in no `Additional`, and a nil config entry
under `title`, the call for `(topic, title)` panics instead of returning true, and the
record's `Searchable` stays false. -/
theorem retain_keep_nil_config :
    (Filters.Retain [exNilConfigKeep] false "topic" "title" exMember).outcome =
      Outcome.panicked ∧
    (Filters.Retain [exNilConfigKeep] false "topic" "title" exMember).m.Searchable = false := by
  decide

/-- The keep decision away from nil config entries: if some filter named `r` lists `x`
in `Items`, none lists it in `Additional`, and the config table holds no nil pointer at
`(r, x)`, the call returns true and leaves `Searchable` true. -/
theorem keep_without_nil_config (fs : Filters) (verbose : Bool) (r x : String) (m : Member)
    (hcfg : (Filters.tables fs).config.lookup (key.mk r x) ≠ some none)
    (hkeep : ∃ f ∈ fs, f.Name = r ∧ x ∈ f.Items)
    (hadd : ∀ f ∈ fs, f.Name = r → x ∉ f.Additional) :
    (fs.Retain verbose r x m).outcome = Outcome.returned true ∧
      (fs.Retain verbose r x m).m.Searchable = true := by
  apply eval_keep _ verbose r x m hcfg
  · rw [tables_additional]
    rintro ⟨f, hf, hn, hx⟩
    exact hadd f hf hn hx
  · exact (tables_keep fs r x).2 hkeep

/-- C5: the config override step fails on a config entry that is a nil pointer. The config
table of the filter `topic` holds an entry for `(topic, title)`, so the lookup of the
evaluator finds one, but the call panics on it and overwrites nothing: `Analyzer` and
`Type` are as they were. -/
theorem retain_config_nil_entry :
    (Filters.tables [exNilConfig]).config.lookup (key.mk "topic" "title") = some none ∧
    (Filters.Retain [exNilConfig] false "topic" "title" exMember).outcome =
      Outcome.panicked ∧
    (Filters.Retain [exNilConfig] false "topic" "title" exMember).m.Analyzer =
      exMember.Analyzer ∧
    (Filters.Retain [exNilConfig] false "topic" "title" exMember).m.Type_ =
      exMember.Type_ := by
  decide

/-- The config override step away from nil entries. If the config table holds an override
`c` for `(r, x)`, the call returns, the record's `Analyzer` is `c.Analyzer` (empty or not)
and its `Type` is the type override when there is one and the old `Type` when there is
none; if the config table holds nothing for `(r, x)`, `Type` and `Analyzer` are
unchanged. -/
theorem config_override_without_nil_config (fs : Filters) (verbose : Bool) (r x : String) (m : Member) :
    (∀ c : CollectionSearchableConfig,
        (Filters.tables fs).config.lookup (key.mk r x) = some (some c) →
        (∃ b, (fs.Retain verbose r x m).outcome = Outcome.returned b) ∧
        (fs.Retain verbose r x m).m.Analyzer = c.Analyzer ∧
        (∀ ty, c.Type_ = some ty → (fs.Retain verbose r x m).m.Type_ = ty) ∧
        (c.Type_ = none → (fs.Retain verbose r x m).m.Type_ = m.Type_)) ∧
    ((Filters.tables fs).config.lookup (key.mk r x) = none →
        (fs.Retain verbose r x m).m.Type_ = m.Type_ ∧
        (fs.Retain verbose r x m).m.Analyzer = m.Analyzer) := by
  constructor
  · intro c hc
    obtain ⟨cty, can⟩ := c
    unfold Filters.Retain Tables.eval
    rw [hc]
    cases hrel : (Filters.tables fs).relations.lookup (key.mk r x) <;>
      cases cty <;> simp only [] <;> split_ifs <;> simp
  · intro hc
    unfold Filters.Retain Tables.eval
    rw [hc]
    cases hrel : (Filters.tables fs).relations.lookup (key.mk r x) <;>
      simp only [] <;> split_ifs <;> simp

/-- C6: the relation step. If a filter named `r` has a `Relations` entry `d` for `x`, and
no later filter named `r` has one, the record's `Relation` is `d` after the call, however
the call ends; if no filter named `r` has an entry for `x`, `Relation` is unchanged. -/
theorem retain_relation_attached (fs : Filters) (verbose : Bool) (r x : String)
    (m : Member) :
    (∀ (pre post : Filters) (f : Filter) (d : Option CollectionRelation),
        fs = pre ++ f :: post → f.Name = r → f.Relations.lookup x = some d →
        (∀ g ∈ post, g.Name = r → g.Relations.lookup x = none) →
        (fs.Retain verbose r x m).m.Relation = d) ∧
    ((∀ f ∈ fs, f.Name = r → f.Relations.lookup x = none) →
        (fs.Retain verbose r x m).m.Relation = m.Relation) := by
  constructor
  · intro pre post f d hfs hn hd hpost
    have hf : relOf f (key.mk r x) = some d := by simp [relOf, hn, hd]
    have hp : ∀ g ∈ post, relOf g (key.mk r x) = none := by
      intro g hg
      unfold relOf
      split_ifs with h
      · exact hpost g hg h.symm
      · rfl
    unfold Filters.Retain
    rw [eval_relation, tables_relations, hfs, foldl_pick_last _ pre post f d none hf hp]
  · intro hall
    have hp : ∀ g ∈ fs, relOf g (key.mk r x) = none := by
      intro g hg
      unfold relOf
      split_ifs with h
      · exact hall g hg h.symm
      · rfl
    unfold Filters.Retain
    rw [eval_relation, tables_relations, foldl_pick_none _ fs none hp]

/-- C6, at the filter `topic` with the relation `meeting` on `owner_id`. -/
theorem retain_relation_attached_witness :
    (Filters.Retain [exTopic] false "topic" "owner_id" exMember).m.Relation =
      some { descr := "meeting" } :=
  (retain_relation_attached [exTopic] false "topic" "owner_id" exMember).1
    [] [] exTopic (some { descr := "meeting" }) rfl rfl (by decide)
    (fun g hg => absurd hg (List.not_mem_nil g))

/-- C7: the evaluator is not total. On a filter list whose `ItemsConfig` holds a nil
pointer under `title`, the call for `(topic, title)` ends in a nil pointer dereference. -/
theorem retain_nil_config_panics :
    (Filters.Retain [exNilConfig] false "topic" "title" exMember).outcome =
      Outcome.panicked ∧
    (Filters.Retain [exNilConfig] true "topic" "title" exMember).outcome =
      Outcome.panicked := by
  decide

/-- The evaluator returns whenever the config table holds no nil pointer at the key; in
particular a key absent from all four tables is an ordinary drop. -/
theorem returns_without_nil_config (fs : Filters) (verbose : Bool) (r x : String) (m : Member)
    (hcfg : (Filters.tables fs).config.lookup (key.mk r x) ≠ some none) :
    ∃ b, (fs.Retain verbose r x m).outcome = Outcome.returned b := by
  have h := (eval_panicked_iff (Filters.tables fs) verbose r x m).not.2 hcfg
  unfold Filters.Retain
  cases ho : ((Filters.tables fs).eval verbose r x m).outcome with
  | returned b => exact ⟨b, rfl⟩
  | panicked => exact absurd ho h

/-! ### The containment map -/

theorem mem_foldl_insert_if {A K : Type} [DecidableEq K] (c : A → Bool) (g : A → K)
    (l : List A) (s : GoSet K) (k : K) :
    k ∈ l.foldl (fun inner a => if c a then inner.insert (g a) () else inner) s ↔
      (∃ a ∈ l, c a = true ∧ g a = k) ∨ k ∈ s := by
  induction l generalizing s with
  | nil => simp
  | cons a l ih =>
    rw [List.foldl_cons, ih]
    simp only [List.mem_cons, exists_eq_or_imp]
    by_cases hc : c a = true
    · simp only [hc, if_true, AList.mem_insert, true_and]
      constructor
      · rintro (h | rfl | h)
        · exact Or.inl (Or.inr h)
        · exact Or.inl (Or.inl rfl)
        · exact Or.inr h
      · rintro ((h | h) | h)
        · exact Or.inr (Or.inl h.symm)
        · exact Or.inl h
        · exact Or.inr (Or.inr h)
    · simp [hc]

/-- The members of the set built for `name`: `name` itself and the names of the filters
whose `Contains` has `name`. -/
theorem mem_containmentOf (fs : Filters) (name n : String) :
    n ∈ fs.containmentOf name ↔ n = name ∨ ∃ g ∈ fs, g.Name = n ∧ name ∈ g.Contains := by
  unfold Filters.containmentOf
  rw [mem_foldl_insert_if (fun g : Filter => (g.Contains.lookup name).isSome) Filter.Name]
  simp only [AList.lookup_isSome, AList.mem_insert, AList.not_mem_empty, or_false]
  constructor
  · rintro (⟨g, hg, hc, rfl⟩ | h)
    · exact Or.inr ⟨g, hg, rfl, hc⟩
    · exact Or.inl h
  · rintro (h | ⟨g, hg, rfl, hc⟩)
    · exact Or.inr h
    · exact Or.inl ⟨g, hg, hc, rfl⟩

theorem lookup_foldl_insert_key {A K V : Type} [DecidableEq K] (kf : A → K) (G : K → V)
    (l : List A) (s : GoMap K V) (k : K) :
    (l.foldl (fun acc a => acc.insert (kf a) (G (kf a))) s).lookup k =
      if k ∈ l.map kf then some (G k) else s.lookup k := by
  induction l generalizing s with
  | nil => simp
  | cons a l ih =>
    rw [List.foldl_cons, ih]
    by_cases h1 : k ∈ l.map kf
    · simp [h1]
    · by_cases h2 : k = kf a
      · subst h2
        simp [AList.lookup_insert]
      · have h3 : k ∉ (a :: l).map kf := by
          simp only [List.map_cons, List.mem_cons, not_or]
          exact ⟨h2, h1⟩
        rw [if_neg h1, if_neg h3, AList.lookup_insert_ne h2]

/-- The containment map has the set built for `n` under every filter name `n`, and
nothing under any other string. -/
theorem lookup_ContainmentMap (fs : Filters) (n : String) :
    (Filters.ContainmentMap fs).lookup n =
      if n ∈ fs.map Filter.Name then some (fs.containmentOf n) else none := by
  unfold Filters.ContainmentMap
  rw [lookup_foldl_insert_key Filter.Name (fun n => fs.containmentOf n)]
  rfl

/-- C8: reflexive containment. For every filter list and every filter `f` in it, the
containment map has an entry under `f.Name` and `f.Name` is a member of that set. -/
theorem containment_reflexive (fs : Filters) (f : Filter) (hf : f ∈ fs) :
    ∃ s, (Filters.ContainmentMap fs).lookup f.Name = some s ∧ f.Name ∈ s := by
  refine ⟨fs.containmentOf f.Name, ?_, ?_⟩
  · rw [lookup_ContainmentMap, if_pos (List.mem_map_of_mem _ hf)]
  · exact (mem_containmentOf fs f.Name f.Name).2 (Or.inl rfl)

/-- C9: direct containment. For a filter list with pairwise distinct names and filters
`f`, `g` in it with different names, the set `s` stored under `f.Name` has `g.Name` exactly
when `g.Contains` lists `f.Name`; and `s` is `f.Name` together with the names of all
filters whose `Contains` lists `f.Name`. -/
theorem containment_direct (fs : Filters) (hnd : (fs.map Filter.Name).Nodup)
    (f g : Filter) (hf : f ∈ fs) (hg : g ∈ fs) (hne : f.Name ≠ g.Name) :
    ∃ s, (Filters.ContainmentMap fs).lookup f.Name = some s ∧
      (g.Name ∈ s ↔ f.Name ∈ g.Contains) ∧
      (∀ n, n ∈ s ↔ n = f.Name ∨ ∃ h ∈ fs, h.Name = n ∧ f.Name ∈ h.Contains) := by
  refine ⟨fs.containmentOf f.Name, ?_, ?_, fun n => mem_containmentOf fs f.Name n⟩
  · rw [lookup_ContainmentMap, if_pos (List.mem_map_of_mem _ hf)]
  · rw [mem_containmentOf]
    constructor
    · rintro (h | ⟨h, hh, hn, hc⟩)
      · exact absurd h.symm hne
      · have : h = g := List.inj_on_of_nodup_map hnd hh hg hn
        rw [← this]
        exact hc
    · intro hc
      exact Or.inr ⟨g, hg, rfl, hc⟩

/-- C8, at the filter `B` of the chain `A`, `B`, `C`. -/
theorem containment_reflexive_witness :
    ∃ s, (Filters.ContainmentMap exChain).lookup "B" = some s ∧ "B" ∈ s :=
  containment_reflexive exChain
    { Name := "B", Items := [], ItemsConfig := ∅, Additional := [],
      Contains := AList.singleton "C" (), Relations := ∅ }
    (by simp [exChain])

/-- C9, at the filters `C` and `B` of the chain `A`, `B`, `C`. -/
theorem containment_direct_witness :
    ∃ s, (Filters.ContainmentMap exChain).lookup "C" = some s ∧
      ("B" ∈ s ↔ "C" ∈ (AList.singleton "C" () : GoSet String)) ∧
      (∀ n, n ∈ s ↔ n = "C" ∨ ∃ h ∈ exChain, h.Name = n ∧ "C" ∈ h.Contains) :=
  containment_direct exChain (by decide)
    { Name := "C", Items := [], ItemsConfig := ∅, Additional := [], Contains := ∅,
      Relations := ∅ }
    { Name := "B", Items := [], ItemsConfig := ∅, Additional := [],
      Contains := AList.singleton "C" (), Relations := ∅ }
    (by simp [exChain]) (by simp [exChain]) (by decide)

/-! ### The ordered decoder -/

/-- On a mapping whose keys and bodies all decode, the loop of the decode keeps no error
and stores one pair per declaration, with the declared name and body, in declaration
order. -/
theorem decodeEntries_pairs (kvs : List (String × CollectionDescription))
    (foreign : List Nat) (filterNum : Int) :
    ∃ ps filterNum1,
      decodeEntries (kvs.map MappingEntry.decoded) foreign filterNum =
        { failed := none, errors := [], pairs := ps, filterNum := filterNum1 } ∧
      ps.map (fun p => (p.1.Name, p.2)) = kvs := by
  induction kvs generalizing foreign filterNum with
  | nil => exact ⟨[], filterNum, rfl, rfl⟩
  | cons kv kvs ih =>
    obtain ⟨ps, c1, h, hp⟩ :=
      ih foreign.tail (filterNumAdd (filterNumAdd filterNum (foreign.headD 0)) 1)
    refine ⟨((FilterKey.mk kv.1
      (filterNumAdd (filterNumAdd filterNum (foreign.headD 0)) 1)), kv.2) :: ps, c1, ?_, ?_⟩
    · simp only [List.map_cons, decodeEntries, MappingEntry.decoded, FilterKey.UnmarshalYAML, h,
        Bool.false_eq_true, ↓reduceIte, List.nil_append]
    · simp [hp]

/-- A mapping with pairwise distinct plain names passes the check for duplicate keys. -/
theorem duplicateKeys_decoded (kvs : List (String × CollectionDescription))
    (hnames : (kvs.map Prod.fst).Nodup) :
    duplicateKeys ((kvs.map MappingEntry.decoded).map MappingEntry.key) = [] := by
  induction kvs with
  | nil => rfl
  | cons kv kvs ih =>
    rw [List.map_cons, List.nodup_cons] at hnames
    simp only [List.map_cons, duplicateKeys, ih hnames.2, List.append_nil, List.map_eq_nil_iff,
      List.filter_eq_nil_iff]
    intro n hn
    simp only [List.mem_map] at hn
    obtain ⟨e, ⟨q, hq, rfl⟩, rfl⟩ := hn
    simp only [MappingEntry.decoded, true_and, decide_eq_true_eq]
    intro heq
    exact hnames.1 (List.mem_map.2 ⟨q, hq, heq.symm⟩)

/-- On a mapping with pairwise distinct names whose keys and bodies all decode,
`value.Decode(&fsm)` succeeds with one pair per declaration, with the declared name and
body, in declaration order. -/
theorem decodeMapping_pairs (kvs : List (String × CollectionDescription))
    (foreign : List Nat) (filterNum : Int) (hnames : (kvs.map Prod.fst).Nodup) :
    ∃ ps filterNum1,
      decodeMapping (kvs.map MappingEntry.decoded) foreign filterNum = (Except.ok ps, filterNum1) ∧
      (decodeEntries (kvs.map MappingEntry.decoded) foreign filterNum).pairs = ps ∧
      ps.map (fun p => (p.1.Name, p.2)) = kvs := by
  obtain ⟨ps, c1, h, hp⟩ := decodeEntries_pairs kvs foreign filterNum
  refine ⟨ps, c1, ?_, ?_, hp⟩
  · unfold decodeMapping
    rw [duplicateKeys_decoded kvs hnames, h]
    simp
  · rw [h]

theorem mem_foldl_insert_pair {K V : Type} [DecidableEq K] (ps : List (K × V))
    (m : GoMap K V) (k : K) :
    k ∈ ps.foldl (fun fsm p => fsm.insert p.1 p.2) m ↔ k ∈ ps.map Prod.fst ∨ k ∈ m := by
  induction ps generalizing m with
  | nil => simp
  | cons p ps ih =>
    rw [List.foldl_cons, ih, AList.mem_insert]
    simp only [List.map_cons, List.mem_cons]
    constructor
    · rintro (h | h | h)
      · exact Or.inl (Or.inr h)
      · exact Or.inl (Or.inl h)
      · exact Or.inr h
    · rintro ((h | h) | h)
      · exact Or.inr (Or.inl h)
      · exact Or.inl h
      · exact Or.inr (Or.inr h)

/-- The keys of the map `fsm` are the decoded keys, in some order, when these are
pairwise distinct. -/
theorem keys_toMap_perm (ps : List (FilterKey × CollectionDescription))
    (hnd : (ps.map Prod.fst).Nodup) : (toMap ps).keys.Perm (ps.map Prod.fst) := by
  rw [List.perm_ext_iff_of_nodup (toMap ps).keys_nodup hnd]
  intro k
  rw [← AList.mem_keys]
  unfold toMap
  rw [mem_foldl_insert_pair]
  simp

/-- Sorting any arrangement of keys that are strictly increasing in `Order` gives the
keys back in that increasing order. -/
theorem sortByOrder_eq (keys iter : List FilterKey)
    (hord : (keys.map FilterKey.Order).Pairwise (· < ·)) (hperm : iter.Perm keys) :
    sortByOrder iter = keys := by
  have hlt : keys.Pairwise (fun a b => a.Order < b.Order) := List.pairwise_map.1 hord
  have hle : keys.Pairwise FilterKey.le := hlt.imp (fun h => Int.le_of_lt h)
  have hinj : ∀ a b, a ∈ keys → b ∈ keys → a.Order = b.Order → a = b :=
    fun a b ha hb h =>
      List.inj_on_of_nodup_map (List.Pairwise.nodup hord) ha hb h
  have hsorted : (sortByOrder iter).Pairwise FilterKey.le :=
    List.sorted_insertionSort FilterKey.le iter
  have hp : (sortByOrder iter).Perm keys := (List.perm_insertionSort _ iter).trans hperm
  refine List.Perm.eq_of_sorted ?_ hsorted hle hp
  intro a b ha hb hab hba
  exact hinj a b (hp.subset ha) hb (Int.le_antisymm hab hba)

/-- C1: order preservation. For a mapping with pairwise distinct filter names whose keys
and bodies all decode, whose keys
receive strictly increasing `Order` values in declaration order (whatever the counter
held before and however many increments of other decodes fall in between), and for
every order in which the intermediate map is iterated, `Filters.UnmarshalYAML` returns no
error and the names of the produced filters are the declared names in declaration order,
one filter per key. -/
theorem unmarshal_preserves_order (fs : Filters) (kvs : List (String × CollectionDescription))
    (rangeKeys : GoMap FilterKey CollectionDescription → List FilterKey)
    (foreign : List Nat) (filterNum : Int)
    (hrange : ∀ m, (rangeKeys m).Perm m.keys)
    (hnames : (kvs.map Prod.fst).Nodup)
    (hord : ((decodedKeys (kvs.map MappingEntry.decoded) foreign filterNum).map
      FilterKey.Order).Pairwise (· < ·)) :
    (Filters.UnmarshalYAML fs (kvs.map MappingEntry.decoded) rangeKeys foreign filterNum).1
        = none ∧
      (Filters.UnmarshalYAML fs (kvs.map MappingEntry.decoded) rangeKeys foreign
        filterNum).2.1.length = kvs.length ∧
      (Filters.UnmarshalYAML fs (kvs.map MappingEntry.decoded) rangeKeys foreign
        filterNum).2.1.map Filter.Name = kvs.map Prod.fst := by
  obtain ⟨ps, c1, hdec, -, hps⟩ := decodeMapping_pairs kvs foreign filterNum hnames
  have hnames : ps.map (fun p => p.1.Name) = kvs.map Prod.fst := by
    rw [← hps, List.map_map]
    rfl
  have hkeys : decodedKeys (kvs.map MappingEntry.decoded) foreign filterNum =
      ps.map Prod.fst := by
    simp [decodedKeys, hdec]
  rw [hkeys] at hord
  have hnd : (ps.map Prod.fst).Nodup :=
    List.Nodup.of_map FilterKey.Order (List.Pairwise.nodup hord)
  have hsort : sortByOrder (rangeKeys (toMap ps)) = ps.map Prod.fst :=
    sortByOrder_eq _ _ hord ((hrange _).trans (keys_toMap_perm ps hnd))
  unfold Filters.UnmarshalYAML
  rw [hdec]
  simp only [hsort, List.map_map]
  have hlen : ps.length = kvs.length := by
    simpa using congrArg List.length hnames
  refine ⟨trivial, ?_, ?_⟩
  · simp [hlen]
  · rw [← hnames]
    rfl

/-- C1, at a mapping declaring `motion`, `assignment`, `topic`, decoded from the counter
value 5 with increments of another decode in between, the map being iterated in the
order of its keys (the reverse of the declaration order). -/
theorem unmarshal_preserves_order_witness :
    (Filters.UnmarshalYAML [] (exMapping.map MappingEntry.decoded) AList.keys [3, 0, 7]
        5).2.1.map Filter.Name = ["motion", "assignment", "topic"] :=
  (unmarshal_preserves_order [] exMapping AList.keys [3, 0, 7] 5
    (fun _ => List.Perm.refl _) (by decide) (by decide)).2.2

/-- Without an error of another kind than a type error in any pair, the loop of the
decode goes through all pairs and keeps the messages of the type errors of all pairs, in
declaration order. -/
theorem decodeEntries_errors (value : List MappingEntry) (foreign : List Nat)
    (filterNum : Int) (hval : ∀ e ∈ value, e.fatalError = none) :
    (decodeEntries value foreign filterNum).failed = none ∧
      (decodeEntries value foreign filterNum).errors =
        (value.map MappingEntry.typeErrors).flatten := by
  induction value generalizing foreign filterNum with
  | nil => exact ⟨rfl, rfl⟩
  | cons e rest ih =>
    have he := hval e (List.mem_cons_self _ _)
    have hrest : ∀ q ∈ rest, q.fatalError = none :=
      fun q hq => hval q (List.mem_cons_of_mem _ hq)
    obtain ⟨⟨kind, val, isNull, dec⟩, body⟩ := e
    cases isNull with
    | true =>
      simpa [decodeEntries, MappingEntry.typeErrors] using ih _ _ hrest
    | false =>
      rcases dec with (errs | msg) | name
      · simpa [decodeEntries, MappingEntry.typeErrors, FilterKey.UnmarshalYAML] using
          ih _ _ hrest
      · simp [MappingEntry.fatalError] at he
      · cases body with
        | failed msg => simp [MappingEntry.fatalError] at he
        | skipped errs =>
          simpa [decodeEntries, MappingEntry.typeErrors, FilterKey.UnmarshalYAML] using
            ih _ _ hrest
        | stored d errs =>
          simpa [decodeEntries, MappingEntry.typeErrors, FilterKey.UnmarshalYAML] using
            ih _ _ hrest

/-- The first pair with an error of another kind than a type error ends the loop of the
decode with this error. -/
theorem decodeEntries_failed (pre post : List MappingEntry) (e : MappingEntry) (msg : String)
    (foreign : List Nat) (filterNum : Int)
    (hpre : ∀ p ∈ pre, p.fatalError = none) (he : e.fatalError = some msg) :
    (decodeEntries (pre ++ e :: post) foreign filterNum).failed = some msg := by
  induction pre generalizing foreign filterNum with
  | nil =>
    obtain ⟨⟨kind, val, isNull, dec⟩, body⟩ := e
    cases isNull with
    | true => simp [MappingEntry.fatalError] at he
    | false =>
      rcases dec with (errs | m) | name
      · simp [MappingEntry.fatalError] at he
      · simp only [MappingEntry.fatalError, Bool.false_eq_true, ↓reduceIte] at he
        simp [decodeEntries, FilterKey.UnmarshalYAML, Option.some.inj he]
      · cases body with
        | failed m =>
          simp only [MappingEntry.fatalError, Bool.false_eq_true, ↓reduceIte] at he
          simp [decodeEntries, FilterKey.UnmarshalYAML, Option.some.inj he]
        | skipped errs => simp [MappingEntry.fatalError] at he
        | stored d errs => simp [MappingEntry.fatalError] at he
  | cons p pre ih =>
    have hp := hpre p (List.mem_cons_self _ _)
    have hrest : ∀ q ∈ pre, q.fatalError = none :=
      fun q hq => hpre q (List.mem_cons_of_mem _ hq)
    obtain ⟨⟨kind, val, isNull, dec⟩, body⟩ := p
    cases isNull with
    | true => simpa [decodeEntries] using ih _ _ hrest
    | false =>
      rcases dec with (errs | m) | name
      · simpa [decodeEntries, FilterKey.UnmarshalYAML] using ih _ _ hrest
      · simp [MappingEntry.fatalError] at hp
      · cases body with
        | failed m => simp [MappingEntry.fatalError] at hp
        | skipped errs => simpa [decodeEntries, FilterKey.UnmarshalYAML] using ih _ _ hrest
        | stored d errs => simpa [decodeEntries, FilterKey.UnmarshalYAML] using ih _ _ hrest

/-- A pair whose key or body does not decode leaves an error in the loop of the decode:
the error that ended it, or a message among the type errors it has kept. -/
theorem decodeEntries_failing (value : List MappingEntry) (foreign : List Nat)
    (filterNum : Int) (hval : ∃ e ∈ value, e.failing) :
    (decodeEntries value foreign filterNum).failed ≠ none ∨
      (decodeEntries value foreign filterNum).errors ≠ [] := by
  induction value generalizing foreign filterNum with
  | nil =>
    obtain ⟨e, he, -⟩ := hval
    exact absurd he (List.not_mem_nil e)
  | cons e rest ih =>
    have hrest : e.failing ∨ ∃ q ∈ rest, q.failing := by
      obtain ⟨q, hq, hf⟩ := hval
      rcases List.mem_cons.1 hq with rfl | hq
      · exact Or.inl hf
      · exact Or.inr ⟨q, hq, hf⟩
    obtain ⟨⟨kind, val, isNull, dec⟩, body⟩ := e
    cases isNull with
    | true =>
      rcases hrest with h | h
      · simp [MappingEntry.failing, MappingEntry.fatalError, MappingEntry.typeErrors] at h
      · simpa [decodeEntries] using ih _ _ h
    | false =>
      rcases dec with (errs | m) | name
      · rcases hrest with h | h
        · right
          simp only [MappingEntry.failing, MappingEntry.fatalError, MappingEntry.typeErrors,
            Bool.false_eq_true, ↓reduceIte, ne_eq, not_true_eq_false, false_or] at h
          simp [decodeEntries, FilterKey.UnmarshalYAML, h]
        · rcases ih foreign.tail (filterNumAdd filterNum (foreign.headD 0)) h with h2 | h2
          · left
            simpa [decodeEntries, FilterKey.UnmarshalYAML] using h2
          · right
            simp only [decodeEntries, FilterKey.UnmarshalYAML, Bool.false_eq_true, ↓reduceIte,
              ne_eq, List.append_eq_nil, not_and]
            exact fun _ => h2
      · left
        simp [decodeEntries, FilterKey.UnmarshalYAML]
      · cases body with
        | failed m =>
          left
          simp [decodeEntries, FilterKey.UnmarshalYAML]
        | skipped errs =>
          rcases hrest with h | h
          · right
            simp only [MappingEntry.failing, MappingEntry.fatalError, MappingEntry.typeErrors,
              Bool.false_eq_true, ↓reduceIte, ne_eq, not_true_eq_false, false_or] at h
            simp [decodeEntries, FilterKey.UnmarshalYAML, h]
          · rcases ih foreign.tail (filterNumAdd (filterNumAdd filterNum (foreign.headD 0)) 1)
              h with h2 | h2
            · left
              simpa [decodeEntries, FilterKey.UnmarshalYAML] using h2
            · right
              simp only [decodeEntries, FilterKey.UnmarshalYAML, Bool.false_eq_true,
                ↓reduceIte, ne_eq, List.append_eq_nil, not_and]
              exact fun _ => h2
        | stored d errs =>
          rcases hrest with h | h
          · right
            simp only [MappingEntry.failing, MappingEntry.fatalError, MappingEntry.typeErrors,
              Bool.false_eq_true, ↓reduceIte, ne_eq, not_true_eq_false, false_or] at h
            simp [decodeEntries, FilterKey.UnmarshalYAML, h]
          · rcases ih foreign.tail (filterNumAdd (filterNumAdd filterNum (foreign.headD 0)) 1)
              h with h2 | h2
            · left
              simpa [decodeEntries, FilterKey.UnmarshalYAML] using h2
            · right
              simp only [decodeEntries, FilterKey.UnmarshalYAML, Bool.false_eq_true,
                ↓reduceIte, ne_eq, List.append_eq_nil, not_and]
              exact fun _ => h2

/-- C10 as stated fails: decoding is not fail-fast and does not return the error of the
failing pair. In a mapping whose first key is a sequence and whose third body is a plain
scalar, `FilterKey.UnmarshalYAML` returns a type error for the first key, yet the decode
goes on: the keys of the second and third pair are numbered (the counter goes from 0 to
2) and `Filters.UnmarshalYAML` returns one type error with the messages of both failing
pairs, which is the error of neither. -/
theorem unmarshal_not_fail_fast :
    (FilterKey.UnmarshalYAML { Name := "", Order := 0 }
        (Except.error (Error.typeError ["cannot unmarshal !!seq into string"])) 0).1 =
      some (Error.typeError ["cannot unmarshal !!seq into string"]) ∧
    (Filters.UnmarshalYAML exChain exBadMapping AList.keys [] 0).1 =
      some (Error.typeError ["cannot unmarshal !!seq into string",
        "cannot unmarshal !!str into meta.CollectionDescription"]) ∧
    (Filters.UnmarshalYAML exChain exBadMapping AList.keys [] 0).1 ≠
      some (Error.typeError ["cannot unmarshal !!seq into string"]) ∧
    (Filters.UnmarshalYAML exChain exBadMapping AList.keys [] 0).2.2 = 2 := by
  decide

/-- C10, amended: all-or-nothing decoding. Whenever `Filters.UnmarshalYAML` returns an
error the target `*fs` is left as it was. It returns an error whenever the key of a pair
does not decode as a plain string or the body of a pair whose key decoded does not decode
(a pair with a null key is passed over: neither its key nor its body is decoded). In a
mapping without duplicate keys: if no pair meets an error of another kind than a type error, the
error is one type error that lists the messages of all failing pairs in declaration
order, so the error of the failing pair when only one pair fails; and the first pair
that meets an error of another kind ends the decode with this error. And
`FilterKey.UnmarshalYAML` returns the error of a key node that does not decode and leaves
`*fk` and the counter as they were. -/
theorem unmarshal_all_or_nothing (fs : Filters) (value : List MappingEntry)
    (rangeKeys : GoMap FilterKey CollectionDescription → List FilterKey)
    (foreign : List Nat) (filterNum : Int) :
    ((Filters.UnmarshalYAML fs value rangeKeys foreign filterNum).1 ≠ none →
      (Filters.UnmarshalYAML fs value rangeKeys foreign filterNum).2.1 = fs) ∧
    ((∃ e ∈ value, e.failing) →
      (Filters.UnmarshalYAML fs value rangeKeys foreign filterNum).1 ≠ none) ∧
    (duplicateKeys (value.map MappingEntry.key) = [] →
      (∀ e ∈ value, e.fatalError = none) →
      (value.map MappingEntry.typeErrors).flatten ≠ [] →
      (Filters.UnmarshalYAML fs value rangeKeys foreign filterNum).1 =
        some (Error.typeError (value.map MappingEntry.typeErrors).flatten)) ∧
    (∀ (pre post : List MappingEntry) (e : MappingEntry) (msg : String),
      value = pre ++ e :: post → duplicateKeys (value.map MappingEntry.key) = [] →
      (∀ p ∈ pre, p.fatalError = none) → e.fatalError = some msg →
      (Filters.UnmarshalYAML fs value rangeKeys foreign filterNum).1 =
        some (Error.other msg)) ∧
    (∀ (fk : FilterKey) (err : Error),
      FilterKey.UnmarshalYAML fk (Except.error err) filterNum = (some err, fk, filterNum)) := by
  refine ⟨?_, ?_, ?_, ?_, fun fk err => rfl⟩
  · intro h
    unfold Filters.UnmarshalYAML at h ⊢
    rcases hd : decodeMapping value foreign filterNum with ⟨r, c1⟩
    rw [hd] at h
    cases r with
    | error err => rfl
    | ok ps => exact absurd rfl h
  · intro hfail
    unfold Filters.UnmarshalYAML decodeMapping
    split_ifs with hdup
    · simp
    · rcases decodeEntries_failing value foreign filterNum hfail with h | h
      · cases hf : (decodeEntries value foreign filterNum).failed with
        | none => exact absurd hf h
        | some msg => simp [hf]
      · cases hf : (decodeEntries value foreign filterNum).failed with
        | none => simp [hf, h]
        | some msg => simp [hf]
  · intro hdup hval hne
    obtain ⟨hf, he⟩ := decodeEntries_errors value foreign filterNum hval
    unfold Filters.UnmarshalYAML decodeMapping
    simp [hdup, hf, he, hne]
  · intro pre post e msg hv hdup hpre he
    have hf := decodeEntries_failed pre post e msg foreign filterNum hpre he
    rw [← hv] at hf
    unfold Filters.UnmarshalYAML decodeMapping
    simp [hdup, hf]

/-- C10 amended, at the mapping whose first key is a sequence and whose third body is a
plain scalar, decoded into a target that holds the chain `A`, `B`, `C`: the error lists the
messages of both pairs and the target is unchanged. -/
theorem unmarshal_all_or_nothing_witness :
    (Filters.UnmarshalYAML exChain exBadMapping AList.keys [] 0).1 =
      some (Error.typeError ["cannot unmarshal !!seq into string",
        "cannot unmarshal !!str into meta.CollectionDescription"]) ∧
    (Filters.UnmarshalYAML exChain exBadMapping AList.keys [] 0).2.1 = exChain :=
  have h := unmarshal_all_or_nothing exChain exBadMapping AList.keys [] 0
  have herr := h.2.2.1 (by decide) (by decide) (by decide)
  ⟨herr, h.1 (by rw [herr]; exact Option.some_ne_none _)⟩

/-! ### The decoded filters -/

theorem lookup_foldl_insert_pair_of_not_mem {K V : Type} [DecidableEq K] (ps : List (K × V))
    (m : GoMap K V) (k : K) (hk : k ∉ ps.map Prod.fst) :
    (ps.foldl (fun fsm p => fsm.insert p.1 p.2) m).lookup k = m.lookup k := by
  induction ps generalizing m with
  | nil => rfl
  | cons p ps ih =>
    simp only [List.map_cons, List.mem_cons, not_or] at hk
    rw [List.foldl_cons, ih _ hk.2, AList.lookup_insert_ne hk.1]

theorem lookup_foldl_insert_pair {K V : Type} [DecidableEq K] (ps : List (K × V))
    (m : GoMap K V) (hnd : (ps.map Prod.fst).Nodup) (p : K × V) (hp : p ∈ ps) :
    (ps.foldl (fun fsm p => fsm.insert p.1 p.2) m).lookup p.1 = some p.2 := by
  induction ps generalizing m with
  | nil => exact absurd hp (List.not_mem_nil p)
  | cons q ps ih =>
    rw [List.map_cons, List.nodup_cons] at hnd
    rw [List.foldl_cons]
    rcases List.mem_cons.1 hp with rfl | hp
    · rw [lookup_foldl_insert_pair_of_not_mem ps _ _ hnd.1, AList.lookup_insert]
    · exact ih _ hnd.2 hp

/-- With pairwise distinct decoded keys, `fsm[s]` is the body decoded with the key `s`. -/
theorem lookup_toMap (ps : List (FilterKey × CollectionDescription))
    (hnd : (ps.map Prod.fst).Nodup) (p : FilterKey × CollectionDescription) (hp : p ∈ ps) :
    (toMap ps).lookup p.1 = some p.2 :=
  lookup_foldl_insert_pair ps ∅ hnd p hp

/-- The filters built from the decoded keys, taken in declaration order, are the filters of
the declared names and bodies. -/
theorem map_buildFilter_keys (ps : List (FilterKey × CollectionDescription))
    (hnd : (ps.map Prod.fst).Nodup) :
    (ps.map Prod.fst).map
        (fun s => buildFilter s (((toMap ps).lookup s).getD CollectionDescription.zero)) =
      (ps.map (fun p => (p.1.Name, p.2))).map (fun p => filterOf p.1 p.2) := by
  rw [List.map_map, List.map_map]
  apply List.map_congr_left
  intro p hp
  simp only [Function.comp, lookup_toMap ps hnd p hp, Option.getD_some]
  rfl

/-- With pairwise distinct names, whatever values the keys receive from the counter and in
whatever order the map is iterated, the decode succeeds and produces, in some order, one
filter per declaration, built from the declared name and body. -/
theorem unmarshal_output_perm (fs : Filters) (kvs : List (String × CollectionDescription))
    (rangeKeys : GoMap FilterKey CollectionDescription → List FilterKey)
    (foreign : List Nat) (filterNum : Int)
    (hrange : ∀ m, (rangeKeys m).Perm m.keys)
    (hnames : (kvs.map Prod.fst).Nodup) :
    (Filters.UnmarshalYAML fs (kvs.map MappingEntry.decoded) rangeKeys foreign filterNum).1
        = none ∧
      (Filters.UnmarshalYAML fs (kvs.map MappingEntry.decoded) rangeKeys foreign
        filterNum).2.1.Perm (kvs.map (fun p => filterOf p.1 p.2)) := by
  obtain ⟨ps, c1, hdec, -, hps⟩ := decodeMapping_pairs kvs foreign filterNum hnames
  have hn : (ps.map (fun p => p.1.Name)).Nodup := by
    have : ps.map (fun p => p.1.Name) = kvs.map Prod.fst := by
      rw [← hps, List.map_map]; rfl
    rw [this]; exact hnames
  have hnd : (ps.map Prod.fst).Nodup := by
    have h2 : (ps.map Prod.fst).map FilterKey.Name = ps.map (fun p => p.1.Name) := by
      rw [List.map_map]; rfl
    exact List.Nodup.of_map FilterKey.Name (h2 ▸ hn)
  have hperm : (sortByOrder (rangeKeys (toMap ps))).Perm (ps.map Prod.fst) :=
    ((List.perm_insertionSort _ _).trans (hrange _)).trans (keys_toMap_perm ps hnd)
  unfold Filters.UnmarshalYAML
  rw [hdec]
  refine ⟨rfl, ?_⟩
  have h3 := hperm.map
    (fun s => buildFilter s (((toMap ps).lookup s).getD CollectionDescription.zero))
  rw [map_buildFilter_keys ps hnd, hps] at h3
  exact h3

/-- With pairwise distinct names and strictly increasing `Order` values, the decode succeeds and produces exactly the
filters of the declared names and bodies, in declaration order. -/
theorem unmarshal_output_eq (fs : Filters) (kvs : List (String × CollectionDescription))
    (rangeKeys : GoMap FilterKey CollectionDescription → List FilterKey)
    (foreign : List Nat) (filterNum : Int)
    (hrange : ∀ m, (rangeKeys m).Perm m.keys)
    (hnames : (kvs.map Prod.fst).Nodup)
    (hord : ((decodedKeys (kvs.map MappingEntry.decoded) foreign filterNum).map
      FilterKey.Order).Pairwise (· < ·)) :
    (Filters.UnmarshalYAML fs (kvs.map MappingEntry.decoded) rangeKeys foreign filterNum).1
        = none ∧
      (Filters.UnmarshalYAML fs (kvs.map MappingEntry.decoded) rangeKeys foreign
        filterNum).2.1 = kvs.map (fun p => filterOf p.1 p.2) := by
  obtain ⟨ps, c1, hdec, -, hps⟩ := decodeMapping_pairs kvs foreign filterNum hnames
  have hkeys : decodedKeys (kvs.map MappingEntry.decoded) foreign filterNum =
      ps.map Prod.fst := by
    simp [decodedKeys, hdec]
  rw [hkeys] at hord
  have hnd : (ps.map Prod.fst).Nodup :=
    List.Nodup.of_map FilterKey.Order (List.Pairwise.nodup hord)
  have hsort : sortByOrder (rangeKeys (toMap ps)) = ps.map Prod.fst :=
    sortByOrder_eq _ _ hord ((hrange _).trans (keys_toMap_perm ps hnd))
  unfold Filters.UnmarshalYAML
  rw [hdec]
  refine ⟨rfl, ?_⟩
  simp only [hsort]
  rw [map_buildFilter_keys ps hnd, hps]

/-! ### The counter -/

theorem wrapInt32_of_range (i : Int) (h1 : -2147483648 ≤ i) (h2 : i < 2147483648) :
    wrapInt32 i = i := by
  unfold wrapInt32
  omega

theorem increments_cons (foreign : List Nat) (n : Nat) :
    increments foreign (n + 1) = foreign.headD 0 + 1 + increments foreign.tail n := by
  unfold increments
  cases foreign with
  | nil => simp; omega
  | cons h t => simp [List.take_succ_cons]; omega

/-- While the counter does not wrap around, the keys of a decode receive strictly
increasing `Order` values, all above the starting value. -/
theorem decodeEntries_increasing (kvs : List (String × CollectionDescription))
    (foreign : List Nat) (filterNum : Int)
    (hlo : -2147483648 ≤ filterNum)
    (hhi : filterNum + increments foreign kvs.length < 2147483648) :
    ∃ ps filterNum1,
      decodeEntries (kvs.map MappingEntry.decoded) foreign filterNum =
        { failed := none, errors := [], pairs := ps, filterNum := filterNum1 } ∧
      (ps.map (fun p => p.1.Order)).Pairwise (· < ·) ∧ ∀ p ∈ ps, filterNum < p.1.Order := by
  induction kvs generalizing foreign filterNum with
  | nil => exact ⟨[], filterNum, rfl, List.Pairwise.nil, fun p hp => absurd hp (List.not_mem_nil p)⟩
  | cons kv kvs ih =>
    rw [List.length_cons, increments_cons] at hhi
    have h1 : filterNumAdd filterNum (foreign.headD 0) = filterNum + foreign.headD 0 := by
      unfold filterNumAdd
      exact wrapInt32_of_range _ (by omega) (by omega)
    have h2 : filterNumAdd (filterNumAdd filterNum (foreign.headD 0)) 1 =
        filterNum + foreign.headD 0 + 1 := by
      rw [h1]
      unfold filterNumAdd
      exact wrapInt32_of_range _ (by omega) (by omega)
    obtain ⟨ps, c1, h, hpw, hgt⟩ :=
      ih foreign.tail (filterNumAdd (filterNumAdd filterNum (foreign.headD 0)) 1)
        (by rw [h2]; omega) (by rw [h2]; omega)
    refine ⟨((FilterKey.mk kv.1
      (filterNumAdd (filterNumAdd filterNum (foreign.headD 0)) 1)), kv.2) :: ps, c1, ?_, ?_, ?_⟩
    · simp only [List.map_cons, decodeEntries, MappingEntry.decoded, FilterKey.UnmarshalYAML, h,
        Bool.false_eq_true, ↓reduceIte, List.nil_append]
    · rw [List.map_cons, List.pairwise_cons]
      refine ⟨?_, hpw⟩
      intro o ho
      obtain ⟨p, hp, rfl⟩ := List.mem_map.1 ho
      exact hgt p hp
    · intro p hp
      rcases List.mem_cons.1 hp with rfl | hp
      · simp only [h2]; omega
      · have := hgt p hp
        rw [h2] at this
        omega

theorem decodedKeys_increasing (kvs : List (String × CollectionDescription))
    (foreign : List Nat) (filterNum : Int)
    (hlo : -2147483648 ≤ filterNum)
    (hhi : filterNum + increments foreign kvs.length < 2147483648) :
    ((decodedKeys (kvs.map MappingEntry.decoded) foreign filterNum).map
      FilterKey.Order).Pairwise (· < ·) := by
  obtain ⟨ps, c1, hdec, hpw, -⟩ := decodeEntries_increasing kvs foreign filterNum hlo hhi
  unfold decodedKeys decodeMapping
  split_ifs with hdup
  · exact List.Pairwise.nil
  · simp only [hdec, ↓reduceIte, List.map_map]
    exact hpw

/-- C11 as stated fails: the mapping declaring `motion`, `assignment`, `topic` decodes in
this order from the counter value 0, and in the order `assignment`, `topic`, `motion` from
the counter value 2147483646, where the second key is numbered after a wrap-around. -/
theorem unmarshal_counter_wraps :
    (Filters.UnmarshalYAML [] (exMapping.map MappingEntry.decoded) AList.keys []
        0).2.1.map Filter.Name = ["motion", "assignment", "topic"] ∧
    (Filters.UnmarshalYAML [] (exMapping.map MappingEntry.decoded) AList.keys []
        2147483646).2.1.map Filter.Name = ["assignment", "topic", "motion"] ∧
    (Filters.UnmarshalYAML [] (exMapping.map MappingEntry.decoded) AList.keys []
        0).2.1.map Filter.Name ≠
      (Filters.UnmarshalYAML [] (exMapping.map MappingEntry.decoded) AList.keys []
        2147483646).2.1.map Filter.Name := by
  decide

/-- C11, amended: for every mapping with pairwise distinct names whose keys and bodies
decode and any two starting
values of the counter from which it does not wrap around during the decode (whatever
other decodes add in between, and in whatever order the map is iterated), both decodes
succeed and produce the same filter sequence: same names in the same order, same
`Items`, `ItemsConfig`, `Additional`, `Contains` and `Relations`. -/
theorem unmarshal_counter_independent (fs1 fs2 : Filters)
    (kvs : List (String × CollectionDescription))
    (rangeKeys1 rangeKeys2 : GoMap FilterKey CollectionDescription → List FilterKey)
    (foreign1 foreign2 : List Nat) (filterNum1 filterNum2 : Int)
    (hrange1 : ∀ m, (rangeKeys1 m).Perm m.keys) (hrange2 : ∀ m, (rangeKeys2 m).Perm m.keys)
    (hnames : (kvs.map Prod.fst).Nodup)
    (hlo1 : -2147483648 ≤ filterNum1)
    (hhi1 : filterNum1 + increments foreign1 kvs.length < 2147483648)
    (hlo2 : -2147483648 ≤ filterNum2)
    (hhi2 : filterNum2 + increments foreign2 kvs.length < 2147483648) :
    (Filters.UnmarshalYAML fs1 (kvs.map MappingEntry.decoded) rangeKeys1 foreign1
        filterNum1).1 = none ∧
    (Filters.UnmarshalYAML fs2 (kvs.map MappingEntry.decoded) rangeKeys2 foreign2
        filterNum2).1 = none ∧
    (Filters.UnmarshalYAML fs1 (kvs.map MappingEntry.decoded) rangeKeys1 foreign1
        filterNum1).2.1 =
      (Filters.UnmarshalYAML fs2 (kvs.map MappingEntry.decoded) rangeKeys2 foreign2
        filterNum2).2.1 := by
  have h1 := unmarshal_output_eq fs1 kvs rangeKeys1 foreign1 filterNum1 hrange1 hnames
    (decodedKeys_increasing kvs foreign1 filterNum1 hlo1 hhi1)
  have h2 := unmarshal_output_eq fs2 kvs rangeKeys2 foreign2 filterNum2 hrange2 hnames
    (decodedKeys_increasing kvs foreign2 filterNum2 hlo2 hhi2)
  exact ⟨h1.1, h2.1, h1.2.trans h2.2.symm⟩

/-- C11 amended, at the mapping declaring `motion`, `assignment`, `topic`, decoded once from
the counter value 0 and once from the value 3 that this first decode leaves, with
increments of another decode in between and the map iterated in two different orders. -/
theorem unmarshal_counter_independent_witness :
    (Filters.UnmarshalYAML [] (exMapping.map MappingEntry.decoded) AList.keys [] 0).2.1 =
      (Filters.UnmarshalYAML exChain (exMapping.map MappingEntry.decoded)
        (fun m => m.keys.reverse) [4, 0, 1] 3).2.1 :=
  (unmarshal_counter_independent [] exChain exMapping AList.keys (fun m => m.keys.reverse)
    [] [4, 0, 1] 0 3 (fun _ => List.Perm.refl _) (fun m => List.reverse_perm m.keys)
    (by decide) (by decide) (by decide) (by decide) (by decide)).2.2

/-! ### More on the containment map -/

/-- C12: containment is not transitive. For `A` containing `B`, `B` containing `C` and `C`
containing nothing, in any order in the list, the set stored under `C` is exactly `C` and
`B`, without `A`. And for every filter list with distinct names and filters `a`, `c` in it
with different names, `a.Name` is in the set stored under `c.Name` only if `a.Contains`
lists `c.Name`. -/
theorem containment_not_transitive :
    (∀ fs : Filters, fs.Perm exChain →
      ∃ s, (Filters.ContainmentMap fs).lookup "C" = some s ∧
        (∀ n, n ∈ s ↔ n = "C" ∨ n = "B") ∧ "A" ∉ s) ∧
    (∀ fs : Filters, (fs.map Filter.Name).Nodup → ∀ a c : Filter, a ∈ fs → c ∈ fs →
      a.Name ≠ c.Name → ∀ s, (Filters.ContainmentMap fs).lookup c.Name = some s →
        a.Name ∈ s → c.Name ∈ a.Contains) := by
  constructor
  · intro fs hperm
    have hC : "C" ∈ fs.map Filter.Name :=
      (hperm.map Filter.Name).symm.subset (by decide)
    have hmem : ∀ n, n ∈ fs.containmentOf "C" ↔ n = "C" ∨ n = "B" := by
      intro n
      rw [mem_containmentOf]
      constructor
      · rintro (h | ⟨g, hg, hn, hc⟩)
        · exact Or.inl h
        · have hg2 : g ∈ exChain := hperm.subset hg
          simp only [exChain, List.mem_cons, List.mem_singleton, List.not_mem_nil,
            or_false] at hg2
          rcases hg2 with rfl | rfl | rfl
          · exact absurd hc (by decide)
          · exact Or.inr hn.symm
          · exact absurd hc (by decide)
      · rintro (h | h)
        · exact Or.inl h
        · refine Or.inr ⟨_, hperm.symm.subset (List.mem_cons_of_mem _ (List.mem_cons_self _ _)),
            h.symm, by decide⟩
    refine ⟨fs.containmentOf "C", ?_, hmem, ?_⟩
    · rw [lookup_ContainmentMap, if_pos hC]
    · rw [hmem]
      decide
  · intro fs hnd a c ha hc hne s hs hin
    rw [lookup_ContainmentMap, if_pos (List.mem_map_of_mem _ hc)] at hs
    have hs2 : fs.containmentOf c.Name = s := Option.some.inj hs
    rw [← hs2, mem_containmentOf] at hin
    rcases hin with h | ⟨g, hg, hn, hcon⟩
    · exact absurd h hne
    · have : g = a := List.inj_on_of_nodup_map hnd hg ha hn
      rw [← this]
      exact hcon

/-- C12, at the list `C`, `A`, `B`, a rearrangement of the chain. -/
theorem containment_not_transitive_witness :
    ∃ s, (Filters.ContainmentMap
        [ { Name := "C", Items := [], ItemsConfig := ∅, Additional := [], Contains := ∅,
            Relations := ∅ },
          { Name := "A", Items := [], ItemsConfig := ∅, Additional := [],
            Contains := AList.singleton "B" (), Relations := ∅ },
          { Name := "B", Items := [], ItemsConfig := ∅, Additional := [],
            Contains := AList.singleton "C" (), Relations := ∅ } ]).lookup "C" = some s ∧
      (∀ n, n ∈ s ↔ n = "C" ∨ n = "B") ∧ "A" ∉ s :=
  containment_not_transitive.1 _ (by
    unfold exChain
    exact (@List.perm_append_comm _ [_, _] [_]).symm)

/-- C20: the containment map speaks about declared filters only. Its keys are exactly the
names of the filters of the list; every member of every set stored in it is the name of
a filter of the list; a string that is not the name of a filter has no entry, also when
some `Contains` lists it. -/
theorem containment_declared_only (fs : Filters) (n : String) :
    (n ∈ Filters.ContainmentMap fs ↔ n ∈ fs.map Filter.Name) ∧
    (∀ s, (Filters.ContainmentMap fs).lookup n = some s →
      ∀ m, m ∈ s → m ∈ fs.map Filter.Name) ∧
    (n ∉ fs.map Filter.Name → (Filters.ContainmentMap fs).lookup n = none) := by
  have hl := lookup_ContainmentMap fs n
  refine ⟨?_, ?_, ?_⟩
  · rw [← AList.lookup_isSome, hl]
    split_ifs with h <;> simp [h]
  · intro s hs m hm
    rw [hl] at hs
    split_ifs at hs with h
    · have hs2 : fs.containmentOf n = s := Option.some.inj hs
      rw [← hs2, mem_containmentOf] at hm
      rcases hm with rfl | ⟨g, hg, rfl, -⟩
      · exact h
      · exact List.mem_map_of_mem _ hg
  · intro h
    rw [hl, if_neg h]

/-- C20, at the single filter `A` whose `Contains` lists `D`, which is no filter. -/
theorem containment_declared_only_witness :
    (Filters.ContainmentMap exDangling).lookup "D" = none :=
  (containment_declared_only exDangling "D").2.2 (by decide)

/-! ### More on the evaluator -/

/-- The config step on the tables: with an override `c` at the key the call returns, and
leaves `c.Analyzer` in `Analyzer` and the type override, if there is one, in `Type`. -/
theorem eval_config_some (t : Tables) (verbose : Bool) (rk fk : String) (m : Member)
    (c : CollectionSearchableConfig)
    (hc : t.config.lookup (key.mk rk fk) = some (some c)) :
    (∃ b, (t.eval verbose rk fk m).outcome = Outcome.returned b) ∧
      (t.eval verbose rk fk m).m.Analyzer = c.Analyzer ∧
      (t.eval verbose rk fk m).m.Type_ =
        (match c.Type_ with
          | some ty => ty
          | none => m.Type_) := by
  obtain ⟨cty, can⟩ := c
  unfold Tables.eval
  rw [hc]
  cases hrel : t.relations.lookup (key.mk rk fk) <;>
    cases cty <;> simp only [] <;> split_ifs <;> simp

/-- A second call on the record that a first call left behind ends as the first and
leaves the record as it is. -/
theorem eval_idempotent (t : Tables) (verbose : Bool) (rk fk : String) (m : Member) :
    (t.eval verbose rk fk (t.eval verbose rk fk m).m).outcome =
        (t.eval verbose rk fk m).outcome ∧
      (t.eval verbose rk fk (t.eval verbose rk fk m).m).m = (t.eval verbose rk fk m).m := by
  unfold Tables.eval
  rcases hcfg : t.config.lookup (key.mk rk fk) with _ | _ | ⟨cty, can⟩ <;>
    cases hrel : t.relations.lookup (key.mk rk fk) <;>
    cases hadd : (t.additional.lookup (key.mk rk fk)).isSome <;>
    cases hkeep : (t.keep.lookup (key.mk rk fk)).isSome <;>
    cases verbose <;> (try cases cty) <;> simp [hadd, hkeep]

/-- The lines of a call: one line for a drop of the verbose evaluator, none otherwise. -/
theorem eval_log (t : Tables) (verbose : Bool) (rk fk : String) (m : Member) :
    (t.eval verbose rk fk m).log =
      if (t.eval verbose rk fk m).outcome = Outcome.returned false ∧ verbose = true then
        ["removing filtered " ++ rk ++ "." ++ fk ++ "\n"]
      else [] := by
  unfold Tables.eval
  rcases hcfg : t.config.lookup (key.mk rk fk) with _ | _ | ⟨cty, can⟩ <;>
    cases hadd : (t.additional.lookup (key.mk rk fk)).isSome <;>
    cases hkeep : (t.keep.lookup (key.mk rk fk)).isSome <;>
    cases verbose <;> simp [hadd, hkeep]

/-- The outcome of a call does not depend on the record or on the verbosity. -/
theorem eval_outcome_indep (t : Tables) (v1 v2 : Bool) (rk fk : String) (m1 m2 : Member) :
    (t.eval v1 rk fk m1).outcome = (t.eval v2 rk fk m2).outcome := by
  unfold Tables.eval
  rcases hcfg : t.config.lookup (key.mk rk fk) with _ | _ | ⟨cty, can⟩ <;>
    cases hadd : (t.additional.lookup (key.mk rk fk)).isSome <;>
    cases hkeep : (t.keep.lookup (key.mk rk fk)).isSome <;>
    cases v1 <;> cases v2 <;> simp [hadd, hkeep]

/-! ### The content of the decoded filters -/

theorem lookup_foldl_insert_sigma {V : Type} (es : List (Sigma fun _ : String => V))
    (hnd : es.NodupKeys) (s : GoMap String V) (x : String) :
    (es.foldl (fun acc e => acc.insert e.1 e.2) s).lookup x =
      pick (es.dlookup x) (s.lookup x) := by
  induction es generalizing s with
  | nil => rfl
  | cons e es ih =>
    obtain ⟨ef, ev⟩ := e
    rw [List.nodupKeys_cons] at hnd
    rw [List.foldl_cons, ih hnd.2]
    by_cases hf : x = ef
    · subst hf
      have hno : List.dlookup x es = none := List.dlookup_eq_none.2 hnd.1
      simp [pick, hno, AList.lookup_insert]
    · rw [AList.lookup_insert_ne hf,
        List.dlookup_cons_ne es (a := x) (⟨ef, ev⟩ : Sigma fun _ : String => V) hf]

/-- The copy of the relations made for a filter has the entries of the body. -/
theorem filterOf_relations (name : String) (d : CollectionDescription) (x : String) :
    (filterOf name d).Relations.lookup x = d.Relations.lookup x := by
  have h : (filterOf name d).Relations.get =
      d.Relations.get.entries.foldl (fun acc e => acc.insert e.1 e.2) ∅ := rfl
  unfold GoNilMap.lookup
  rw [h, lookup_foldl_insert_sigma _ d.Relations.get.nodupKeys]
  unfold pick AList.lookup
  cases List.dlookup x d.Relations.get.entries <;> rfl

/-- The copy of the relations made for a filter is a map that was made, never the nil
map, and an empty one when the body has no relations. -/
theorem filterOf_relations_made (name : String) (d : CollectionDescription) :
    (filterOf name d).Relations.isNil = false ∧
      (d.Relations.get = ∅ → (filterOf name d).Relations = GoNilMap.made ∅) := by
  refine ⟨rfl, ?_⟩
  intro hempty
  unfold filterOf buildFilter
  simp only [hempty]
  rfl

/-- The set made of the raw `contains` list has the names of the list. -/
theorem filterOf_contains (name : String) (d : CollectionDescription) (n : String) :
    n ∈ (filterOf name d).Contains ↔ n ∈ d.Contains := by
  unfold filterOf buildFilter
  simp only []
  rw [mem_foldl_insert_unit (fun c : String => c)]
  simp

/-- The set made of the raw `contains` list has as many members as the list has
distinct names. -/
theorem filterOf_contains_length (name : String) (d : CollectionDescription) :
    (filterOf name d).Contains.keys.length = d.Contains.dedup.length := by
  apply List.Perm.length_eq
  rw [List.perm_ext_iff_of_nodup (filterOf name d).Contains.keys_nodup (List.nodup_dedup _)]
  intro n
  rw [← AList.mem_keys, filterOf_contains, List.mem_dedup]

/-- With pairwise distinct names, the decode succeeds and for every declared name `k`
with body `b` the filter built from `k` and `b` is among the produced filters and is the
only produced filter named `k`. -/
theorem unmarshal_output_filter (fs : Filters) (kvs : List (String × CollectionDescription))
    (rangeKeys : GoMap FilterKey CollectionDescription → List FilterKey)
    (foreign : List Nat) (filterNum : Int)
    (hrange : ∀ m, (rangeKeys m).Perm m.keys)
    (hnames : (kvs.map Prod.fst).Nodup) :
    (Filters.UnmarshalYAML fs (kvs.map MappingEntry.decoded) rangeKeys foreign filterNum).1
        = none ∧
      ∀ k b, (k, b) ∈ kvs →
        filterOf k b ∈ (Filters.UnmarshalYAML fs (kvs.map MappingEntry.decoded) rangeKeys
          foreign filterNum).2.1 ∧
        ∀ f ∈ (Filters.UnmarshalYAML fs (kvs.map MappingEntry.decoded) rangeKeys
          foreign filterNum).2.1, f.Name = k → f = filterOf k b := by
  obtain ⟨herr, hperm⟩ := unmarshal_output_perm fs kvs rangeKeys foreign filterNum hrange hnames
  refine ⟨herr, ?_⟩
  intro k b hkb
  constructor
  · exact hperm.symm.subset (List.mem_map.2 ⟨(k, b), hkb, rfl⟩)
  · intro f hf hname
    obtain ⟨p, hp, rfl⟩ := List.mem_map.1 (hperm.subset hf)
    have hk : p.1 = k := hname
    have : p = (k, b) := List.inj_on_of_nodup_map hnames hp hkb hk
    rw [this]

/-! ### Claims about the decoded filters -/

/-- C16: `Contains` is a deduplicated set. For every key and body, a name is a member of
the `Contains` set of the filter built from them exactly when it occurs in the raw
`contains` list of the body, and the set has as many members as the list has distinct
names; and for a mapping with distinct names, every produced filter has these properties
for the body declared with its name. -/
theorem decoded_contains_dedup :
    (∀ (s : FilterKey) (d : CollectionDescription),
      (∀ n, n ∈ (buildFilter s d).Contains ↔ n ∈ d.Contains) ∧
      (buildFilter s d).Contains.keys.length = d.Contains.dedup.length) ∧
    (∀ (fs : Filters) (kvs : List (String × CollectionDescription))
      (rangeKeys : GoMap FilterKey CollectionDescription → List FilterKey)
      (foreign : List Nat) (filterNum : Int),
      (∀ m, (rangeKeys m).Perm m.keys) → (kvs.map Prod.fst).Nodup →
      ∀ k b, (k, b) ∈ kvs →
        (∃ f ∈ (Filters.UnmarshalYAML fs (kvs.map MappingEntry.decoded) rangeKeys foreign
          filterNum).2.1, f.Name = k) ∧
        ∀ f ∈ (Filters.UnmarshalYAML fs (kvs.map MappingEntry.decoded) rangeKeys foreign
          filterNum).2.1, f.Name = k →
          (∀ n, n ∈ f.Contains ↔ n ∈ b.Contains) ∧
          f.Contains.keys.length = b.Contains.dedup.length) := by
  constructor
  · intro s d
    exact ⟨fun n => filterOf_contains s.Name d n, filterOf_contains_length s.Name d⟩
  · intro fs kvs rangeKeys foreign filterNum hrange hnames k b hkb
    obtain ⟨-, hout⟩ := unmarshal_output_filter fs kvs rangeKeys foreign filterNum hrange hnames
    obtain ⟨hin, huniq⟩ := hout k b hkb
    refine ⟨⟨filterOf k b, hin, rfl⟩, ?_⟩
    intro f hf hname
    rw [huniq f hf hname]
    exact ⟨fun n => filterOf_contains k b n, filterOf_contains_length k b⟩

/-- C16, at the mapping declaring `A` with the raw list `B`, `B`, `C`: the filter `A` of the
decode has a `Contains` set of two members, the names of the list. -/
theorem decoded_contains_dedup_witness :
    ∃ f ∈ (Filters.UnmarshalYAML [] (exMappingContains.map MappingEntry.decoded) AList.keys
        [] 0).2.1, f.Name = "A" ∧
      (∀ n, n ∈ f.Contains ↔ n ∈ ["B", "B", "C"]) ∧ f.Contains.keys.length = 2 :=
  have h := decoded_contains_dedup.2 [] exMappingContains AList.keys [] 0
    (fun _ => List.Perm.refl _) (by decide) "A" _ (List.mem_cons_self _ _)
  match h.1 with
  | ⟨f, hf, hname⟩ => ⟨f, hf, hname, (h.2 f hf hname).1, (h.2 f hf hname).2⟩

/-- C17: decoding preserves the content of each filter. For a mapping whose keys and
bodies decode and whose names are pairwise distinct, whatever the counter holds and in
whatever order the map is iterated, the decode succeeds and for every declared name `k`
with body `b` there is a produced filter named `k`, and every produced filter named `k`
has `Items` equal to `b.Searchable`, `ItemsConfig` equal to `b.SearchableConfig`,
`Additional` equal to `b.Additional` and a `Relations` map that is not nil and has exactly
the entries of `b.Relations`: the empty map that is not nil when `b` has no relations, be
the map of `b` nil or empty. -/
theorem decoded_content (fs : Filters) (kvs : List (String × CollectionDescription))
    (rangeKeys : GoMap FilterKey CollectionDescription → List FilterKey)
    (foreign : List Nat) (filterNum : Int)
    (hrange : ∀ m, (rangeKeys m).Perm m.keys)
    (hnames : (kvs.map Prod.fst).Nodup) :
    (Filters.UnmarshalYAML fs (kvs.map MappingEntry.decoded) rangeKeys foreign filterNum).1
        = none ∧
      ∀ k b, (k, b) ∈ kvs →
        (∃ f ∈ (Filters.UnmarshalYAML fs (kvs.map MappingEntry.decoded) rangeKeys foreign
          filterNum).2.1, f.Name = k) ∧
        ∀ f ∈ (Filters.UnmarshalYAML fs (kvs.map MappingEntry.decoded) rangeKeys foreign
          filterNum).2.1, f.Name = k →
          f.Items = b.Searchable ∧ f.ItemsConfig = b.SearchableConfig ∧
          f.Additional = b.Additional ∧
          f.Relations.isNil = false ∧
          (∀ x, f.Relations.lookup x = b.Relations.lookup x) ∧
          (b.Relations.get = ∅ → f.Relations = GoNilMap.made ∅) := by
  obtain ⟨herr, hout⟩ := unmarshal_output_filter fs kvs rangeKeys foreign filterNum hrange hnames
  refine ⟨herr, ?_⟩
  intro k b hkb
  obtain ⟨hin, huniq⟩ := hout k b hkb
  refine ⟨⟨filterOf k b, hin, rfl⟩, ?_⟩
  intro f hf hname
  rw [huniq f hf hname]
  exact ⟨rfl, rfl, rfl, (filterOf_relations_made k b).1, fun x => filterOf_relations k b x,
    (filterOf_relations_made k b).2⟩

/-- C17, at the mapping declaring `A` and `B`, where the body of `B` has a nil `Relations`
map: the filter `B` of the decode has the searchable field of the body, no additional
field and a `Relations` map that is empty and not nil. -/
theorem decoded_content_witness :
    ∃ f ∈ (Filters.UnmarshalYAML [] (exMappingContains.map MappingEntry.decoded) AList.keys
        [] 0).2.1, f.Name = "B" ∧
      f.Items = ["text"] ∧ f.Additional = [] ∧ f.Relations.isNil = false ∧
      f.Relations = GoNilMap.made ∅ ∧ (exBody "text").Relations.isNil = true :=
  have h := (decoded_content [] exMappingContains AList.keys [] 0
    (fun _ => List.Perm.refl _) (by decide)).2 "B" (exBody "text")
    (List.mem_cons_of_mem _ (List.mem_cons_self _ _))
  match h.1 with
  | ⟨f, hf, hname⟩ =>
    ⟨f, hf, hname, (h.2 f hf hname).1, (h.2 f hf hname).2.2.1, (h.2 f hf hname).2.2.2.1,
      (h.2 f hf hname).2.2.2.2.2 rfl, rfl⟩

/-! ### More claims about the evaluator -/

/-- C13: drop with logging fails on a filter list whose config map holds a nil pointer for
the field: `title` is in no `Items` and no `Additional`, and the call of the verbose
evaluator for `(topic, title)` panics, returning nothing and emitting no line. -/
theorem retain_drop_log_nil_config :
    (∀ f ∈ [exNilConfig], "title" ∉ f.Items ∧ "title" ∉ f.Additional) ∧
    (Filters.Retain [exNilConfig] true "topic" "title" exMember).outcome ≠
      Outcome.returned false ∧
    (Filters.Retain [exNilConfig] true "topic" "title" exMember).log = [] := by
  decide

/-- Drop with logging away from nil config entries: a pair in no `Items` and no
`Additional` of a filter named `r` is dropped, with the one line
`removing filtered r.x` from the verbose evaluator and no line from the silent one; and
no call that returns true emits a line. -/
theorem drop_log_without_nil_config (fs : Filters) (verbose : Bool) (r x : String)
    (m : Member) :
    ((Filters.tables fs).config.lookup (key.mk r x) ≠ some none →
      (∀ f ∈ fs, f.Name = r → x ∉ f.Additional) → (∀ f ∈ fs, f.Name = r → x ∉ f.Items) →
      (fs.Retain verbose r x m).outcome = Outcome.returned false ∧
      (fs.Retain verbose r x m).log =
        if verbose then ["removing filtered " ++ r ++ "." ++ x ++ "\n"] else []) ∧
    ((fs.Retain verbose r x m).outcome = Outcome.returned true →
      (fs.Retain verbose r x m).log = []) := by
  constructor
  · intro hcfg hadd hkeep
    have h := (drop_without_nil_config fs verbose r x m hcfg hadd hkeep).1
    refine ⟨h, ?_⟩
    unfold Filters.Retain at h ⊢
    rw [eval_log, h]
    cases verbose <;> simp
  · intro h
    unfold Filters.Retain at h ⊢
    rw [eval_log, h]
    simp

/-- C14: the last filter does not win the config table with an entry that is a nil
pointer. Two filters named `topic` supply an `ItemsConfig` entry for `text`, the first an
override with the type `html`, the last a nil pointer; the call for `(topic, text)` panics
on the entry of the last filter and applies no override: `Analyzer` and `Type` are as they
were. -/
theorem retain_last_filter_nil_config :
    exTopic.ItemsConfig.lookup "text" =
      some (some { Type_ := some "html", Analyzer := none }) ∧
    exTopicNil.ItemsConfig.lookup "text" = some none ∧
    (Filters.Retain [exTopic, exTopicNil] false "topic" "text" exMember).outcome =
      Outcome.panicked ∧
    (Filters.Retain [exTopic, exTopicNil] false "topic" "text" exMember).m.Analyzer =
      exMember.Analyzer ∧
    (Filters.Retain [exTopic, exTopicNil] false "topic" "text" exMember).m.Type_ =
      exMember.Type_ := by
  decide

/-- The last filter wins, away from nil config entries. Let `f` be a filter named `r` in
the list. If `f` has a
`Relations` entry `d` for `x` and no later filter named `r` has one, the call for `(r, x)`
leaves `d` in `Relation`, whatever earlier filters named `r` supply; if `f` has an override
`c` for `x` and no later filter named `r` has a config entry for `x`, the call returns and
leaves `c.Analyzer` in `Analyzer` and, in `Type`, the type of `c` if it has one and the old
`Type` of the record if not, whatever earlier filters named `r` supply. -/
theorem last_filter_wins_without_nil_config (fs pre post : Filters) (f : Filter) (verbose : Bool)
    (r x : String) (m : Member) (hfs : fs = pre ++ f :: post) (hname : f.Name = r) :
    (∀ d, f.Relations.lookup x = some d →
      (∀ g ∈ post, g.Name = r → g.Relations.lookup x = none) →
      (fs.Retain verbose r x m).m.Relation = d) ∧
    (∀ c, f.ItemsConfig.lookup x = some (some c) →
      (∀ g ∈ post, g.Name = r → g.ItemsConfig.lookup x = none) →
      (∃ b, (fs.Retain verbose r x m).outcome = Outcome.returned b) ∧
      (fs.Retain verbose r x m).m.Analyzer = c.Analyzer ∧
      (fs.Retain verbose r x m).m.Type_ =
        (match c.Type_ with
          | some ty => ty
          | none => m.Type_)) := by
  constructor
  · intro d hd hpost
    have hf : relOf f (key.mk r x) = some d := by simp [relOf, hname, hd]
    have hp : ∀ g ∈ post, relOf g (key.mk r x) = none := by
      intro g hg
      unfold relOf
      split_ifs with h
      · exact hpost g hg h.symm
      · rfl
    unfold Filters.Retain
    rw [eval_relation, tables_relations, hfs, foldl_pick_last _ pre post f d none hf hp]
  · intro c hc hpost
    have hf : cfgOf f (key.mk r x) = some (some c) := by simp [cfgOf, hname, hc]
    have hp : ∀ g ∈ post, cfgOf g (key.mk r x) = none := by
      intro g hg
      unfold cfgOf
      split_ifs with h
      · exact hpost g hg h.symm
      · rfl
    have ht : (Filters.tables fs).config.lookup (key.mk r x) = some (some c) := by
      rw [tables_config, hfs, foldl_pick_last _ pre post f (some c) none hf hp]
    exact eval_config_some _ verbose r x m c ht

/-- C15: override composition fails on a config entry that is a nil pointer. The pair
`(topic, title)` is present in the relations table and in the config table; the call sets
`Relation`, then panics on the nil config entry and does not overwrite `Analyzer`. -/
theorem retain_composition_nil_config :
    (Filters.tables [exNilConfigRelation]).relations.lookup (key.mk "topic" "title") =
      some (some { descr := "agenda_item" }) ∧
    (Filters.tables [exNilConfigRelation]).config.lookup (key.mk "topic" "title") =
      some none ∧
    (Filters.Retain [exNilConfigRelation] true "topic" "title" exMember).outcome =
      Outcome.panicked ∧
    (Filters.Retain [exNilConfigRelation] true "topic" "title" exMember).m.Relation =
      some { descr := "agenda_item" } ∧
    (Filters.Retain [exNilConfigRelation] true "topic" "title" exMember).m.Analyzer =
      exMember.Analyzer := by
  decide

/-- Override composition away from nil config entries. If the relations table holds the descriptor `d` and the
config table holds the override `c` for `(r, x)`, one call for `(r, x)` returns and leaves
`d` in `Relation`, `c.Analyzer` in `Analyzer` and, in `Type`, the type of `c` if it has one
and the old `Type` if not, for every filter list, whatever filters the two entries come
from and whether the pair is kept, additional or dropped. -/
theorem override_composition_without_nil_config (fs : Filters) (verbose : Bool) (r x : String)
    (m : Member) (d : Option CollectionRelation) (c : CollectionSearchableConfig)
    (hrel : (Filters.tables fs).relations.lookup (key.mk r x) = some d)
    (hcfg : (Filters.tables fs).config.lookup (key.mk r x) = some (some c)) :
    (∃ b, (fs.Retain verbose r x m).outcome = Outcome.returned b) ∧
    (fs.Retain verbose r x m).m.Relation = d ∧
    (fs.Retain verbose r x m).m.Analyzer = c.Analyzer ∧
    (fs.Retain verbose r x m).m.Type_ =
      (match c.Type_ with
        | some ty => ty
        | none => m.Type_) := by
  have h := eval_config_some _ verbose r x m c hcfg
  refine ⟨h.1, ?_, h.2.1, h.2.2⟩
  unfold Filters.Retain
  rw [eval_relation, hrel]

/-- C18: the retain signal is not characterised by `Items` and `Additional` on a filter
list whose config map holds a nil pointer for the field: a filter named `topic` lists
`title` in `Items`, and the call for `(topic, title)` does not return true. -/
theorem retain_signal_nil_config :
    (∃ f ∈ [exNilConfigKeep], f.Name = "topic" ∧ ("title" ∈ f.Items ∨ "title" ∈ f.Additional)) ∧
    (Filters.Retain [exNilConfigKeep] true "topic" "title" exMember).outcome ≠
      Outcome.returned true := by
  decide

/-- The retain signal away from nil config entries: the call returns, and returns true
exactly when a filter named `r` lists `x` in `Items` or in `Additional`; and the way a
call ends never depends on the record or on the verbosity. -/
theorem retain_signal_without_nil_config (fs : Filters) (verbose : Bool) (r x : String)
    (m : Member) :
    ((Filters.tables fs).config.lookup (key.mk r x) ≠ some none →
      (∃ b, (fs.Retain verbose r x m).outcome = Outcome.returned b) ∧
      ((fs.Retain verbose r x m).outcome = Outcome.returned true ↔
        ∃ f ∈ fs, f.Name = r ∧ (x ∈ f.Items ∨ x ∈ f.Additional))) ∧
    (∀ (verbose2 : Bool) (m2 : Member),
      (fs.Retain verbose r x m).outcome = (fs.Retain verbose2 r x m2).outcome) := by
  constructor
  · intro hcfg
    refine ⟨returns_without_nil_config fs verbose r x m hcfg, ?_⟩
    by_cases hadd : ∃ f ∈ fs, f.Name = r ∧ x ∈ f.Additional
    · have h := (additional_wins_without_nil_config fs verbose r x m hcfg hadd).1
      obtain ⟨f, hf, hn, hx⟩ := hadd
      exact ⟨fun _ => ⟨f, hf, hn, Or.inr hx⟩, fun _ => h⟩
    · have hadd2 : ∀ f ∈ fs, f.Name = r → x ∉ f.Additional :=
        fun f hf hn hx => hadd ⟨f, hf, hn, hx⟩
      by_cases hkeep : ∃ f ∈ fs, f.Name = r ∧ x ∈ f.Items
      · have h := (keep_without_nil_config fs verbose r x m hcfg hkeep hadd2).1
        obtain ⟨f, hf, hn, hx⟩ := hkeep
        exact ⟨fun _ => ⟨f, hf, hn, Or.inl hx⟩, fun _ => h⟩
      · have hkeep2 : ∀ f ∈ fs, f.Name = r → x ∉ f.Items :=
          fun f hf hn hx => hkeep ⟨f, hf, hn, hx⟩
        have h := (drop_without_nil_config fs verbose r x m hcfg hadd2 hkeep2).1
        constructor
        · intro h2
          rw [h] at h2
          exact absurd h2 (by decide)
        · rintro ⟨f, hf, hn, hx | hx⟩
          · exact absurd hx (hkeep2 f hf hn)
          · exact absurd hx (hadd2 f hf hn)
  · intro verbose2 m2
    exact eval_outcome_indep _ verbose verbose2 r x m m2

/-- C19: the evaluator is idempotent on the record. For every filter list, verbosity, pair
and record, a second call on the record left by the first call ends as the first call did
(with the same returned boolean) and leaves the record in the state the first call
left it in. -/
theorem retain_idempotent (fs : Filters) (verbose : Bool) (r x : String) (m : Member) :
    (fs.Retain verbose r x (fs.Retain verbose r x m).m).outcome =
        (fs.Retain verbose r x m).outcome ∧
      (fs.Retain verbose r x (fs.Retain verbose r x m).m).m =
        (fs.Retain verbose r x m).m :=
  eval_idempotent (Filters.tables fs) verbose r x m

end Meta
